import Mathlib

/-!
Verification development for the avtool repository (scanner.py, transcode.py).

The definitions below are a shallow embedding of the Python source:
  * `AVTool.parseAV` models `AVFilesMatcher.FILE_PATTERNS[0]` (Python `re`,
    case-insensitive, backtracking with leftmost-greedy priority);
  * `AVTool.matchStep` / `AVTool.procNames` / `AVTool.getEntries` model
    `AVFilesMatcher.match` / `match_all` / `get`;
  * `AVTool.defaultDirMatch` / `AVTool.everAverMatch` model the two directory
    matchers, and `AVTool.scanDir` models `AVScanner.find_iter`;
  * `AVTool.transcodeMovies` models `transcode_movies` over an explicit
    filesystem state with an oracle deciding the outcome of the external
    ffmpeg run and of each `os.rename` call site.
Fallible Python operations (the `ord` call on a multi-character capture
raises `TypeError`) are modelled with `Option`.
-/

namespace AVTool

/-! ### ASCII character helpers (mirroring Python `re.I` and `str.upper`) -/

def lowUpPairs : List (Char × Char) :=
  [('a','A'),('b','B'),('c','C'),('d','D'),('e','E'),('f','F'),('g','G'),
   ('h','H'),('i','I'),('j','J'),('k','K'),('l','L'),('m','M'),('n','N'),
   ('o','O'),('p','P'),('q','Q'),('r','R'),('s','S'),('t','T'),('u','U'),
   ('v','V'),('w','W'),('x','X'),('y','Y'),('z','Z')]

def upperC (c : Char) : Char :=
  match lowUpPairs.find? (fun p => p.1 == c) with
  | some p => p.2
  | none => c

def lowerC (c : Char) : Char :=
  match lowUpPairs.find? (fun p => p.2 == c) with
  | some p => p.1
  | none => c

def asciiUpper (s : String) : String := String.mk (s.toList.map upperC)

def asciiLower (s : String) : String := String.mk (s.toList.map lowerC)

/-- Case-insensitive character equality, as used by `re.I`. -/
def ciEq (a b : Char) : Bool := lowerC a == lowerC b

def isDigitC (c : Char) : Bool := 48 ≤ c.toNat && c.toNat ≤ 57

def isAlphaC (c : Char) : Bool :=
  lowUpPairs.any (fun p => p.1 == c || p.2 == c)

def isAlnumC (c : Char) : Bool := isDigitC c || isAlphaC c

/-- Python `\s` (ASCII range). -/
def isSpaceC (c : Char) : Bool :=
  c == ' ' || c == '\t' || c == '\n' || c == '\r' || c.toNat == 11 || c.toNat == 12

/-- Python `.` without DOTALL: any character except a newline. -/
def isDotAny (c : Char) : Bool := c != '\n'

def isUpperAlnum (c : Char) : Bool := (65 ≤ c.toNat && c.toNat ≤ 90) || isDigitC c

/-- The canonical-identifier shape from the spec: `[A-Z0-9]+-[0-9]+`, anchored,
case-sensitive. -/
def isCanonicalId (s : String) : Bool :=
  let cs := s.toList
  let a := cs.takeWhile isUpperAlnum
  match cs.drop a.length with
  | '-' :: d => !a.isEmpty && !d.isEmpty && d.all isDigitC
  | _ => false

/-! ### A backtracking matcher for the anchored regexes of scanner.py

Each component function returns its candidate continuations in the order the
Python `re` engine would try them (alternatives left to right, greedy
quantifiers longest first), so taking the first overall success reproduces
the `re` semantics of these patterns.
-/

/-- Match a literal case-insensitively, returning the rest of the input. -/
def matchCI : List Char → List Char → Option (List Char)
  | [], s => some s
  | _ :: _, [] => none
  | l :: ls, c :: cs => if ciEq l c then matchCI ls cs else none

/-- Candidate splits for a greedy character-class repetition with a minimum
length, longest first: pairs of (consumed run, rest). -/
def greedySplits (p : Char → Bool) (s : List Char) (minLen : Nat) :
    List (List Char × List Char) :=
  let n := (s.takeWhile p).length
  (List.range (n + 1 - minLen)).map (fun k => (s.take (n - k), s.drop (n - k)))

/-- Python `$` without MULTILINE: end of input, or just before a final
newline. -/
def atEnd (s : List Char) : Bool := s == [] || s == ['\n']

/-- Candidates for the identifier subpattern
`(?:[A-Z0-9]+)-(?:[0-9]+)` (with `re.I`): pairs of (captured chars, rest). -/
def idCands (s : List Char) : List (List Char × List Char) :=
  (greedySplits isAlnumC s 1).flatMap (fun ar =>
    match ar.2 with
    | '-' :: r1 =>
      (greedySplits isDigitC r1 1).map (fun dr => (ar.1 ++ '-' :: dr.1, dr.2))
    | _ => [])

/-- Candidates for the optional leading group `(?:HD-|\[[a-z0-9]+\.[a-z]+\])?`
of the file pattern: remainders in priority order. -/
def bracketCands (s : List Char) : List (List Char) :=
  match s with
  | '[' :: r1 =>
    (greedySplits isAlnumC r1 1).flatMap (fun ar =>
      match ar.2 with
      | '.' :: r2 =>
        (greedySplits isAlphaC r2 1).filterMap (fun br =>
          match br.2 with
          | ']' :: r3 => some r3
          | _ => none)
      | _ => [])
  | _ => []

def leadCands (s : List Char) : List (List Char) :=
  (match matchCI ['h','d','-'] s with
   | some r => [r]
   | none => [])
  ++ bracketCands s ++ [s]

/-- Candidates for the optional ordinal group
`(?:\s*\((?P<order1>\d+)\)|-(?P<order2>\d+)|\((?P<order3>[a-z])\))?`:
tuples of (order1, order2, order3, rest) in priority order. -/
def orderCands (s : List Char) :
    List (Option String × Option String × Option Char × List Char) :=
  ((greedySplits isSpaceC s 0).flatMap (fun sr =>
      match sr.2 with
      | '(' :: r1 =>
        (greedySplits isDigitC r1 1).filterMap (fun dr =>
          match dr.2 with
          | ')' :: r2 => some (some (String.mk dr.1), none, none, r2)
          | _ => none)
      | _ => []))
  ++ (match s with
      | '-' :: r1 =>
        (greedySplits isDigitC r1 1).map
          (fun dr => (none, some (String.mk dr.1), none, dr.2))
      | _ => [])
  ++ (match s with
      | '(' :: c :: ')' :: r3 => if isAlphaC c then [(none, none, some c, r3)] else []
      | _ => [])
  ++ [(none, none, none, s)]

/-- Candidates for the optional trailing group `(?:\s+.*)?`: remainders in
priority order. -/
def trailCands (s : List Char) : List (List Char) :=
  ((greedySplits isSpaceC s 1).flatMap (fun sr =>
    (greedySplits isDotAny sr.2 0).map (fun tr => tr.2)))
  ++ [s]

/-- The movie-extension alternation `mp4|wmv|mkv|avi|rm|rmvb?` — note the
stray `?` the source appends after the join, so `rmv` is also accepted and
`rmvb` is tried before `rmv` (greedy `b?`). -/
def movieExtLits : List (List Char) :=
  [['m','p','4'], ['w','m','v'], ['m','k','v'], ['a','v','i'], ['r','m'],
   ['r','m','v','b'], ['r','m','v']]

def extCands (s : List Char) : List (List Char × List Char) :=
  movieExtLits.filterMap (fun lit =>
    match matchCI lit s with
    | some r => some (s.take lit.length, r)
    | none => none)

/-- Candidates for `(?:\.(?P<download_ext>ut!|part))?`. -/
def dlLits : List (List Char) := [['u','t','!'], ['p','a','r','t']]

def dlCands (s : List Char) : List (Option String × List Char) :=
  (match s with
   | '.' :: r =>
     dlLits.filterMap (fun lit =>
       match matchCI lit r with
       | some r2 => some (some (String.mk (r.take lit.length)), r2)
       | none => none)
   | _ => [])
  ++ [(none, s)]

/-- The capture groups of `AVFilesMatcher.FILE_PATTERNS[0]`. -/
structure RawMatch where
  id : String
  order1 : Option String
  order2 : Option String
  order3 : Option Char
  ext : String
  downloadExt : Option String
deriving DecidableEq, Repr

/-- Models `FILE_PATTERNS[0].match(name)` of scanner.py. -/
def parseAV (name : String) : Option RawMatch :=
  (leadCands name.toList).findSome? (fun s1 =>
    (idCands s1).findSome? (fun idr =>
      (orderCands idr.2).findSome? (fun oc =>
        (trailCands oc.2.2.2).findSome? (fun s4 =>
          match s4 with
          | '.' :: s5 =>
            (extCands s5).findSome? (fun er =>
              (dlCands er.2).findSome? (fun dr =>
                if atEnd dr.2 then
                  some { id := String.mk idr.1, order1 := oc.1,
                         order2 := oc.2.1, order3 := oc.2.2.1,
                         ext := String.mk er.1, downloadExt := dr.1 }
                else none))
          | _ => none))))

/-- Models `DefaultAVDirectoryMatcher.DIR_PATTERN.match(base_name)`: returns the
captured id on success. -/
def parseDir (name : String) : Option String :=
  let cs := name.toList
  ((match matchCI ['h','d','-'] cs with
    | some r => [r]
    | none => []) ++ [cs]).findSome? (fun s1 =>
    (idCands s1).findSome? (fun idr =>
      (trailCands idr.2).findSome? (fun r2 =>
        if atEnd r2 then some (String.mk idr.1) else none)))

/-- Models `EverAverDirectoryMatcher.DIR_PATTERN.match(base_name)`: returns the
captured id on success. -/
def parseEA (name : String) : Option String :=
  (greedySplits isDotAny name.toList 0).findSome? (fun tr =>
    match tr.2 with
    | '[' :: r1 =>
      (idCands r1).findSome? (fun idr =>
        match idr.2 with
        | ']' :: r3 => if atEnd r3 then some (String.mk idr.1) else none
        | _ => none)
    | _ => none)

/-! ### FileClassifier (`AVFilesMatcher`) -/

/-- Python `ord(s) - ord('0')` on a capture string: `TypeError` (modelled as
`none`) unless the string has exactly one character. -/
def pyOrdStr (s : String) : Option Nat :=
  match s.toList with
  | [c] => some (c.toNat - 48)
  | _ => none

/-- One step of the `for order_idx in range(1, n_orders + 1)` loop of
`AVFilesMatcher.match`: a present capture overwrites the current order. -/
def stepOrd (cur : Option Nat) (g : Option String) : Option Nat :=
  match g with
  | none => cur
  | some s =>
    match cur with
    | none => none
    | some _ => pyOrdStr s

/-- The numeric order `m_order` computed by `AVFilesMatcher.match` from the
three ordinal captures (default 0). -/
def computeOrder (r : RawMatch) : Option Nat :=
  stepOrd (stepOrd (stepOrd (some 0) r.order1) r.order2)
    (r.order3.map (fun c => String.mk [c]))

/-- Per-identifier classification state: either the `FORBIDDEN` sentinel or
the still-open list of `(order, filename)` pairs. -/
inductive MState where
  | forbidden
  | open_ (l : List (Nat × String))
deriving DecidableEq, Repr

/-- Models `files_to_process`, a `defaultdict(list)`: an insertion-ordered
association list (keys are unique), with the empty open list as the default
value. -/
def lookupState : List (String × MState) → String → MState
  | [], _ => .open_ []
  | q :: t, k => if q.1 = k then q.2 else lookupState t k

/-- Python dict assignment: an existing key keeps its position and gets the
new value, a new key is appended at the end. -/
def setState : List (String × MState) → String → MState →
    List (String × MState)
  | [], k, v => [(k, v)]
  | q :: t, k, v => if q.1 = k then (k, v) :: t else q :: setState t k v

/-- Models `AVFilesMatcher.match(name)` for a regular file: `none` models the
`TypeError` raised by `ord` on a multi-character ordinal capture. -/
def matchStep (scope : Option String) (st : List (String × MState))
    (name : String) : Option (List (String × MState)) :=
  match parseAV name with
  | none => some st
  | some r =>
    let mId := asciiUpper r.id
    if r.downloadExt.isSome then some (setState st mId .forbidden)
    else
      match computeOrder r with
      | none => none
      | some mOrder =>
        if scope.isNone || scope == some mId then
          match lookupState st mId with
          | .forbidden => some st
          | .open_ l => some (setState st mId (.open_ (l ++ [(mOrder, name)])))
        else some st

/-- Feeding a list of file names to one `AVFilesMatcher` instance, in order
(`match_all` with the given directory listing). -/
def procNames (scope : Option String) (names : List String) :
    Option (List (String × MState)) :=
  names.foldlM (fun st n => matchStep scope st n) []

/-- The `AVEntry` record of scanner.py. -/
structure AVEntry where
  movie_id : String
  parent_dir : String
  own_dir : Bool
  movie_files : List String
  asset_files : Option (List String)
deriving DecidableEq, Repr

/-- Python string comparison: lexicographic by code point. -/
def charsLt : List Char → List Char → Bool
  | [], [] => false
  | [], _ :: _ => true
  | _ :: _, [] => false
  | a :: as_, b :: bs => Nat.blt a.toNat b.toNat || (a == b && charsLt as_ bs)

def strLtB (a b : String) : Bool := charsLt a.toList b.toList

/-- Python tuple comparison on `(order, name)` pairs, as used by
`m_list.sort()`. -/
def pairLe (a b : Nat × String) : Bool :=
  Nat.blt a.1 b.1 || (a.1 == b.1 && (a.2 == b.2 || strLtB a.2 b.2))

def pairR (a b : Nat × String) : Prop := pairLe a b = true

instance : DecidableRel pairR := fun _ _ => inferInstanceAs (Decidable (_ = true))

/-- Models `m_list.sort()`: a stable sort by the Python tuple order (any stable sort
agrees with Timsort for a total preorder). -/
def sortPairs (l : List (Nat × String)) : List (Nat × String) :=
  l.insertionSort pairR

/-- Models `AVFilesMatcher.get()`. -/
def getEntries (parentDir : String) (st : List (String × MState)) :
    List AVEntry :=
  st.filterMap (fun p =>
    match p.2 with
    | .forbidden => none
    | .open_ l => some {
        movie_id := asciiUpper p.1, parent_dir := parentDir, own_dir := false,
        movie_files := (sortPairs l).map (fun q => q.2), asset_files := none })

/-! ### Directory matchers and the scanner -/

/-- A directory tree: each child is a file or a subdirectory. -/
inductive FSNode where
  | file : FSNode
  | dir : List (String × FSNode) → FSNode

def isFileNode : FSNode → Bool
  | .file => true
  | .dir _ => false

/-- The names of the file children, in listing order (`os.path.isfile`
filtering of `os.listdir`). -/
def fileNamesOf (cs : List (String × FSNode)) : List String :=
  cs.filterMap (fun p => if isFileNode p.2 then some p.1 else none)

/-- Models `os.path.splitext` on a bare file name: split at the last dot unless all
characters before it are dots. -/
def splitext (s : String) : String × String :=
  let cs := s.toList
  match cs.reverse.findIdx? (fun c => c == '.') with
  | none => (s, "")
  | some k =>
    let i := cs.length - 1 - k
    if (cs.take i).any (fun c => c != '.') then
      (String.mk (cs.take i), String.mk (cs.drop i))
    else (s, "")

/-- Models `left.upper().endswith(right.upper())` on bare names. -/
def strEndsWith (a b : String) : Bool := b.toList.isSuffixOf a.toList

/-- Models `AVDirectoryMatcher.collect_assets(parent_dir, base_name)`: for each
asset extension, include the file name if a file child with exactly that
name exists (symlink/real-path resolution is the identity in this model). -/
def ASSET_EXTENSIONS : List String :=
  ["json", "yml", "nfo", "jpg", "jpeg", "png", "zip"]

def MOVIE_EXTENSIONS : List String := ["mp4", "wmv", "mkv", "avi", "rm", "rmvb"]

def collectAssets (children : List (String × FSNode)) (base : String) :
    List String :=
  ASSET_EXTENSIONS.filterMap (fun ext =>
    let nm := base ++ "." ++ ext
    if children.any (fun p => p.1 == nm && isFileNode p.2) then some nm
    else none)

/-- Models `DefaultAVDirectoryMatcher.match(path)`; the outer `none` models a
`TypeError` escaping from the scoped classifier. -/
def defaultDirMatch (dirPath name : String)
    (children : List (String × FSNode)) : Option (Option AVEntry) :=
  match parseDir name with
  | none => some none
  | some rawId =>
    let movieId := asciiUpper rawId
    match procNames (some movieId) (fileNamesOf children) with
    | none => none
    | some st =>
      match getEntries dirPath st with
      | [] => some none
      | e :: _ =>
        let assets :=
          collectAssets children name ++
            (if asciiUpper name != movieId then collectAssets children movieId
             else [])
        some (some { e with
          own_dir := true,
          asset_files := if assets.isEmpty then none else some assets })

/-- Models `EverAverDirectoryMatcher.match(path)`: note that all children (files and
subdirectories alike) are examined, and the captured id is NOT uppercased. -/
def everAverMatch (dirPath name : String)
    (children : List (String × FSNode)) : Option AVEntry :=
  match parseEA name with
  | none => none
  | some mid =>
    children.findSome? (fun p =>
      let lr := splitext p.1
      if strEndsWith (asciiUpper lr.1) (asciiUpper name) &&
          MOVIE_EXTENSIONS.contains (asciiLower (String.mk lr.2.toList.tail))
      then
        some { movie_id := mid, parent_dir := dirPath, own_dir := true,
               movie_files := [p.1],
               asset_files := some (collectAssets children name) }
      else none)

/-- The matcher chain of `AVScanner`: default matcher first, EverAver second,
first success wins. -/
def tryMatchers (dirPath name : String) (children : List (String × FSNode)) :
    Option (Option AVEntry) :=
  match defaultDirMatch dirPath name children with
  | none => none
  | some (some e) => some (some e)
  | some none => some (everAverMatch dirPath name children)

/-! The recursive generator `g` of `AVScanner.find_iter`:
`scanDir pp name children` scans the directory whose full path is
`pp ++ "/" ++ name`; `scanKids` is the loop over its children, accumulating
yielded entries and the local classifier state. -/

mutual

def scanDir (pp name : String) (children : List (String × FSNode)) :
    Option (List AVEntry) :=
  let dp := pp ++ "/" ++ name
  match tryMatchers dp name children with
  | none => none
  | some (some e) => some [e]
  | some none =>
    match scanKids dp children [] [] with
    | none => none
    | some r => some (r.1 ++ getEntries dp r.2)
termination_by sizeOf children + 1

def scanKids (dp : String) (cs : List (String × FSNode))
    (acc : List AVEntry) (st : List (String × MState)) :
    Option (List AVEntry × List (String × MState)) :=
  match cs with
  | [] => some (acc, st)
  | (n, .file) :: rest =>
    match matchStep none st n with
    | none => none
    | some st2 => scanKids dp rest acc st2
  | (n, .dir cs2) :: rest =>
    match scanDir dp n cs2 with
    | none => none
    | some es => scanKids dp rest (acc ++ es) st
termination_by sizeOf cs

end

/-- Models `AVScanner.find_iter(root_dir)`. -/
def findIter (pp name : String) (root : FSNode) : Option (List AVEntry) :=
  match root with
  | .file => some []
  | .dir cs => scanDir pp name cs

/-- The concatenation of the entries produced below the directory children,
in listing order (used to state the scanner ordering guarantee). -/
def collectSub (dp : String) : List (String × FSNode) → Option (List AVEntry)
  | [] => some []
  | (_, .file) :: rest => collectSub dp rest
  | (n, .dir cs) :: rest =>
    match scanDir dp n cs with
    | none => none
    | some es =>
      match collectSub dp rest with
      | none => none
      | some es2 => some (es ++ es2)

/-! ### Transcode decision engine (`transcode.py`) -/

/-- The per-track codec descriptors of `MovieCodec` (flat string-to-string
attribute mappings). -/
structure MovieCodec where
  video : List (String × String)
  audio : List (String × String)
deriving DecidableEq, Repr

def dlookup (k : String) : List (String × String) → Option String
  | [] => none
  | kv :: rest => if kv.1 == k then some kv.2 else dlookup k rest

/-- Python `dict` equality: the same keys mapped to the same values. -/
def dictEqb (a b : List (String × String)) : Bool :=
  a.all (fun kv => dlookup kv.1 b == some kv.2) &&
    b.all (fun kv => dlookup kv.1 a == some kv.2)

/-- Models `MovieCodec.is_desired_video_codec`. -/
def isDesiredVideoCodec (c : MovieCodec) : Bool :=
  dlookup "codec_name" c.video == some "h264" ||
    dlookup "codec_name" c.video == some "hevc"

def adjacentAllB (f : MovieCodec → MovieCodec → Bool) :
    List MovieCodec → Bool
  | [] => true
  | [_] => true
  | a :: b :: t => f a b && adjacentAllB f (b :: t)

/-- The value of `audio_need_transcode` after lines 61-67 of transcode.py. -/
def audioNeedTranscode (cs : List MovieCodec) : Bool :=
  !(cs.length == 1 || adjacentAllB (fun a b => dictEqb a.audio b.audio) cs)

/-- The value of `video_need_transcode` after lines 62-73 of transcode.py
(for a non-empty codec list; `input_codecs[0]` is the head). -/
def videoNeedTranscode (cs : List MovieCodec) : Bool :=
  match cs with
  | [] => true
  | c0 :: _ =>
    !((cs.length == 1 || adjacentAllB (fun a b => dictEqb a.video b.video) cs)
      && isDesiredVideoCodec c0)

def audioCopy (cs : List MovieCodec) : Bool := !audioNeedTranscode cs

def videoCopy (cs : List MovieCodec) : Bool := !videoNeedTranscode cs

/-- The four pipelines of step 3 plus the no-op early return. -/
inductive Pipeline where
  | noop
  | directCopy
  | concatCopy
  | reencodeSingle
  | reencodeConcat
deriving DecidableEq, Repr

/-- The branch of transcode.py lines 77-115 that executes, given the input
list, the output path (paths are taken `os.path.abspath`-normalized, so path
equality is string equality) and the probed codecs. -/
def selectPipeline (inputs : List String) (output : String)
    (cs : List MovieCodec) : Pipeline :=
  if audioCopy cs && videoCopy cs then
    if inputs.length > 1 then .concatCopy
    else if inputs.headD "" != output then .directCopy
    else .noop
  else if inputs.length > 1 then .reencodeConcat
  else .reencodeSingle

/-- A filesystem: file contents are abstract tokens. -/
def FS : Type := String → Option Nat

def fsRename (src dst : String) (fs : FS) : FS := fun p =>
  if p = dst then fs src else if p = src then none else fs p

def fsRemove (q : String) (fs : FS) : FS := fun p =>
  if p = q then none else fs p

def fsWrite (q : String) (v : Nat) (fs : FS) : FS := fun p =>
  if p = q then some v else fs p

def fsExists (fs : FS) (q : String) : Bool := (fs q).isSome

/-- The paths involved in one `transcode_movies` invocation: the inputs, the
output, the two uuid-suffixed temporary names of lines 55-57, and the
playlist path inside the private `TemporaryDirectory`. -/
structure TParams where
  inputs : List String
  output : String
  temp1 : String
  temp2 : String
  listPath : String

/-- The environment of one invocation: probe outcome, probed codecs, whether
the ffmpeg run succeeds (and whether a failing run leaves a file behind at
the temporary output), the produced content token, and the outcome of each
`os.rename` call site (lines 119, 121, 123, 128). -/
structure TOracle where
  probeOk : Bool
  codecs : List MovieCodec
  encodeOk : Bool
  encodeLeavesFile : Bool
  newContent : Nat
  renameOutT2Ok : Bool
  renameT1OutOk : Bool
  renameBackOk : Bool
  renameFreshOk : Bool

/-- The `finally` clause of lines 130-132. -/
def finallyCleanup (p : TParams) (fs : FS) : FS :=
  if fsExists fs p.temp1 then fsRemove p.temp1 fs else fs

/-- Lines 117-128 (the commit), followed by the `finally` clause; the second
component is true iff no exception propagates. -/
def commitPhase (p : TParams) (o : TOracle) (fs : FS) : FS × Bool :=
  if fsExists fs p.output then
    if o.renameOutT2Ok then
      let fsA := fsRename p.output p.temp2 fs
      if o.renameT1OutOk then
        let fsB := fsRename p.temp1 p.output fsA
        (finallyCleanup p (fsRemove p.temp2 fsB), true)
      else
        if o.renameBackOk then
          (finallyCleanup p (fsRename p.temp2 p.output fsA), false)
        else (finallyCleanup p fsA, false)
    else (finallyCleanup p fs, false)
  else
    if o.renameFreshOk then
      (finallyCleanup p (fsRename p.temp1 p.output fs), true)
    else (finallyCleanup p fs, false)

/-- The `with TemporaryDirectory()` block (lines 76-115: playlist written
only for the concat-copy pipeline, then the ffmpeg run producing the
temporary output, then the directory cleanup) followed by the commit of
lines 117-132. -/
def encodeAndCommit (p : TParams) (o : TOracle) (useList : Bool)
    (fs0 : FS) : FS × Bool :=
  let fs1 := if useList then fsWrite p.listPath 0 fs0 else fs0
  if o.encodeOk then
    let fs2 := fsWrite p.temp1 o.newContent fs1
    let fs3 := if useList then fsRemove p.listPath fs2 else fs2
    commitPhase p o fs3
  else
    let fs2 :=
      if o.encodeLeavesFile then fsWrite p.temp1 o.newContent fs1 else fs1
    let fs3 := if useList then fsRemove p.listPath fs2 else fs2
    (finallyCleanup p fs3, false)

/-- Models `transcode_movies(input_files, output_file)` as a state transformer: the
resulting filesystem, and true iff the call returns normally. -/
def transcodeMovies (p : TParams) (o : TOracle) (fs0 : FS) : FS × Bool :=
  if p.inputs.isEmpty then (fs0, false)
  else if !o.probeOk then (fs0, false)
  else
    match selectPipeline p.inputs p.output o.codecs with
    | .noop => (fs0, true)
    | pl => encodeAndCommit p o (pl == .concatCopy) fs0

/-! ### Definitions following the wording of the specification

These are NOT translations of the source; they formalize the spec claims
that are compared against the behaviour of the source-level definitions
above. -/

/-- Spec wording of claim C4: "sorted ascending by extracted numeric order,
with ties broken by insertion order": a stable sort by the order alone. -/
def specSortTiesByInsertion (l : List (Nat × String)) : List String :=
  (l.insertionSort (fun a b => a.1 ≤ b.1)).map (fun q => q.2)

/-- Spec wording of claim C3: the file is a recognized movie file for the
given (canonical) identifier. -/
def specIsMovieFileFor (mid : String) (n : String) : Bool :=
  match parseAV n with
  | some r => asciiUpper r.id == mid && r.downloadExt.isNone
  | none => false

/-- Spec wording of claim C3: the file is an asset file whose base name
equals the directory name or the identifier (case-insensitive). -/
def specIsAssetFileFor (dirName mid : String) (n : String) : Bool :=
  ASSET_EXTENSIONS.any (fun ext =>
    asciiUpper n == asciiUpper (dirName ++ "." ++ ext) ||
      asciiUpper n == asciiUpper (mid ++ "." ++ ext))

/-- Spec wording of claim C3: no file exists in the directory that is
neither a recognized movie file for this id nor such an asset file. -/
def specNoExtraFiles (dirName mid : String)
    (children : List (String × FSNode)) : Bool :=
  (fileNamesOf children).all (fun n =>
    specIsMovieFileFor mid n || specIsAssetFileFor dirName mid n)

/-- The invariant maintained by `AVFilesMatcher` on `files_to_process`:
keys are distinct, uppercase-fixed, canonically shaped, and open lists are
non-empty. -/
def stateWF (st : List (String × MState)) : Prop :=
  (st.map Prod.fst).Nodup ∧
    ∀ p ∈ st, asciiUpper p.1 = p.1 ∧ isCanonicalId p.1 = true ∧
      ∀ l, p.2 = MState.open_ l → l ≠ []

end AVTool

namespace AVTool

/-! ### Helper lemmas: characters and identifier shapes -/

theorem toList_mk (l : List Char) : (String.mk l).toList = l := rfl

theorem upperC_fix_snd : ∀ p ∈ lowUpPairs, upperC p.2 = p.2 := by decide

theorem upperC_idem (c : Char) : upperC (upperC c) = upperC c := by
  cases hf : lowUpPairs.find? (fun p => p.1 == c) with
  | none =>
    have h1 : upperC c = c := by unfold upperC; rw [hf]
    rw [h1]; exact h1
  | some q =>
    have h1 : upperC c = q.2 := by unfold upperC; rw [hf]
    rw [h1]
    exact upperC_fix_snd q (List.mem_of_find?_eq_some hf)

theorem asciiUpper_idem (s : String) : asciiUpper (asciiUpper s) = asciiUpper s := by
  unfold asciiUpper
  rw [toList_mk, List.map_map]
  exact congrArg String.mk (List.map_congr_left (fun a _ => upperC_idem a))

theorem lowUp_fst_ge : ∀ p ∈ lowUpPairs, 97 ≤ p.1.toNat := by decide

theorem lowUp_snd_upper : ∀ p ∈ lowUpPairs, isUpperAlnum p.2 = true := by decide

theorem upperC_of_not_low (c : Char) (h : ∀ p ∈ lowUpPairs, p.1 ≠ c) :
    upperC c = c := by
  unfold upperC
  have hf : lowUpPairs.find? (fun p => p.1 == c) = none := by
    rw [List.find?_eq_none]; intro p hp; simpa using h p hp
  rw [hf]

theorem upperC_digit (c : Char) (h : isDigitC c = true) : upperC c = c := by
  apply upperC_of_not_low
  intro p hp hpc
  have h1 := lowUp_fst_ge p hp
  rw [hpc] at h1
  unfold isDigitC at h
  simp only [Bool.and_eq_true, decide_eq_true_eq] at h
  omega

theorem isUpperAlnum_of_digit (c : Char) (h : isDigitC c = true) :
    isUpperAlnum c = true := by
  unfold isUpperAlnum
  rw [h]
  simp

theorem upperC_alnum (c : Char) (h : isAlnumC c = true) :
    isUpperAlnum (upperC c) = true := by
  unfold isAlnumC at h
  rcases Bool.or_eq_true _ _ |>.mp h with hd | ha
  · rw [upperC_digit c hd]; exact isUpperAlnum_of_digit c hd
  · unfold isAlphaC at ha
    rw [List.any_eq_true] at ha
    obtain ⟨p, hp, hpc⟩ := ha
    cases hf : lowUpPairs.find? (fun q => q.1 == c) with
    | some q =>
      have h2 : upperC c = q.2 := by unfold upperC; rw [hf]
      rw [h2]
      exact lowUp_snd_upper q (List.mem_of_find?_eq_some hf)
    | none =>
      have h3 := List.find?_eq_none.mp hf
      have h4 : upperC c = c := by unfold upperC; rw [hf]
      rw [h4]
      rcases Bool.or_eq_true _ _ |>.mp hpc with h5 | h5
      · exact absurd (by simpa using h5) (by simpa using h3 p hp)
      · have h6 : p.2 = c := by simpa using h5
        rw [← h6]
        exact lowUp_snd_upper p hp

theorem takeWhile_all_append (p : Char → Bool) (l1 : List Char) (x : Char)
    (l2 : List Char) (h1 : l1.all p = true) (h2 : p x = false) :
    (l1 ++ x :: l2).takeWhile p = l1 := by
  induction l1 with
  | nil => simp [List.takeWhile_cons, h2]
  | cons a t ih =>
    simp only [List.all_cons, Bool.and_eq_true] at h1
    simp [List.takeWhile_cons, h1.1, ih h1.2]

theorem canonical_of_shape (a d : List Char)
    (ha : a ≠ []) (ha2 : a.all isAlnumC = true)
    (hd : d ≠ []) (hd2 : d.all isDigitC = true) :
    isCanonicalId (asciiUpper (String.mk (a ++ '-' :: d))) = true := by
  have hd3 : d.map upperC = d := by
    clear hd
    induction d with
    | nil => rfl
    | cons c t ih =>
      simp only [List.all_cons, Bool.and_eq_true] at hd2
      simp [upperC_digit c hd2.1, ih hd2.2]
  have hup : (a.map upperC).all isUpperAlnum = true := by
    rw [List.all_eq_true]
    intro x hx
    rw [List.mem_map] at hx
    obtain ⟨c, hc, rfl⟩ := hx
    exact upperC_alnum c (List.all_eq_true.mp ha2 c hc)
  have hdash : upperC '-' = '-' := by decide
  simp only [asciiUpper, isCanonicalId, toList_mk, List.map_append,
    List.map_cons, hdash, hd3,
    takeWhile_all_append isUpperAlnum (List.map upperC a) '-' d hup (by decide),
    List.drop_left]
  simp [List.isEmpty_iff, ha, hd, hd2]

/-! ### Helper lemmas: the regex components -/

theorem takeWhile_take_all (p : Char → Bool) (s : List Char) (i : Nat)
    (h : i ≤ (s.takeWhile p).length) : (s.take i).all p = true := by
  induction s generalizing i with
  | nil => simp
  | cons c t ih =>
    cases i with
    | zero => simp
    | succ j =>
      rw [List.takeWhile_cons] at h
      by_cases hc : p c
      · simp only [hc, if_true, List.length_cons] at h
        simp only [List.take_succ_cons, List.all_cons, hc, Bool.true_and]
        exact ih j (by omega)
      · simp [hc] at h

theorem greedySplits_mem (p : Char → Bool) (s : List Char) (m : Nat)
    (t r : List Char) (h : (t, r) ∈ greedySplits p s m) :
    t.all p = true ∧ m ≤ t.length ∧ s = t ++ r := by
  unfold greedySplits at h
  rw [List.mem_map] at h
  obtain ⟨k, hk, heq⟩ := h
  rw [List.mem_range] at hk
  have ht : t = s.take ((s.takeWhile p).length - k) := by
    have := congrArg Prod.fst heq; simpa using this.symm
  have hr : r = s.drop ((s.takeWhile p).length - k) := by
    have := congrArg Prod.snd heq; simpa using this.symm
  have hn : (s.takeWhile p).length ≤ s.length := by
    have h2 : s.takeWhile p <+: s := List.takeWhile_prefix p
    exact h2.length_le
  refine ⟨?_, ?_, ?_⟩
  · rw [ht]; exact takeWhile_take_all p s _ (by omega)
  · rw [ht, List.length_take]; omega
  · rw [ht, hr, List.take_append_drop]

theorem idCands_mem (s : List Char) (q : List Char × List Char)
    (h : q ∈ idCands s) :
    ∃ a d, q.1 = a ++ '-' :: d ∧ a ≠ [] ∧ a.all isAlnumC = true ∧
      d ≠ [] ∧ d.all isDigitC = true := by
  unfold idCands at h
  rw [List.mem_flatMap] at h
  obtain ⟨ar, har, h2⟩ := h
  obtain ⟨h3, h4, _⟩ := greedySplits_mem _ _ _ _ _ (by simpa using har)
  split at h2
  case _ r1 heq =>
    rw [List.mem_map] at h2
    obtain ⟨dr, hdr, h5⟩ := h2
    obtain ⟨h6, h7, _⟩ := greedySplits_mem _ _ _ _ _ (by simpa using hdr)
    have h8 : q.1 = ar.1 ++ '-' :: dr.1 := by
      have := congrArg Prod.fst h5; simpa using this.symm
    refine ⟨ar.1, dr.1, h8, ?_, h3, ?_, h6⟩
    · intro hnil; rw [hnil] at h4; simp at h4
    · intro hnil; rw [hnil] at h7; simp at h7
  case _ => simp at h2

end AVTool

namespace AVTool

/-- The shape of the id capture of the file pattern. -/
theorem parseAV_id_shape (name : String) (r : RawMatch)
    (h : parseAV name = some r) :
    ∃ a d, r.id = String.mk (a ++ '-' :: d) ∧ a ≠ [] ∧ a.all isAlnumC = true ∧
      d ≠ [] ∧ d.all isDigitC = true := by
  unfold parseAV at h
  obtain ⟨s1, _, h⟩ := List.exists_of_findSome?_eq_some h
  try simp only at h
  obtain ⟨idr, hidr, h⟩ := List.exists_of_findSome?_eq_some h
  try simp only at h
  obtain ⟨oc, _, h⟩ := List.exists_of_findSome?_eq_some h
  try simp only at h
  obtain ⟨s4, _, h⟩ := List.exists_of_findSome?_eq_some h
  try simp only at h
  split at h
  case _ =>
    obtain ⟨er, _, h⟩ := List.exists_of_findSome?_eq_some h
    try simp only at h
    obtain ⟨dr, _, h⟩ := List.exists_of_findSome?_eq_some h
    try simp only at h
    split at h
    case _ =>
      obtain ⟨a, d, h1, h2, h3, h4, h5⟩ := idCands_mem s1 idr hidr
      have h6 : r.id = String.mk idr.1 := by
        have := congrArg RawMatch.id (Option.some.inj h)
        exact this.symm
      exact ⟨a, d, by rw [h6, h1], h2, h3, h4, h5⟩
    case _ => exact absurd h (by simp)
  case _ => exact absurd h (by simp)

/-- The shape of the id capture of the default directory pattern. -/
theorem parseDir_shape (name : String) (mid : String)
    (h : parseDir name = some mid) :
    ∃ a d, mid = String.mk (a ++ '-' :: d) ∧ a ≠ [] ∧ a.all isAlnumC = true ∧
      d ≠ [] ∧ d.all isDigitC = true := by
  unfold parseDir at h
  obtain ⟨s1, _, h⟩ := List.exists_of_findSome?_eq_some h
  try simp only at h
  obtain ⟨idr, hidr, h⟩ := List.exists_of_findSome?_eq_some h
  try simp only at h
  obtain ⟨r2, _, h⟩ := List.exists_of_findSome?_eq_some h
  try simp only at h
  split at h
  case _ =>
    obtain ⟨a, d, h1, h2, h3, h4, h5⟩ := idCands_mem s1 idr hidr
    exact ⟨a, d, by rw [← Option.some.inj h, h1], h2, h3, h4, h5⟩
  case _ => exact absurd h (by simp)

/-- The shape of the id capture of the EverAver directory pattern. -/
theorem parseEA_shape (name : String) (mid : String)
    (h : parseEA name = some mid) :
    ∃ a d, mid = String.mk (a ++ '-' :: d) ∧ a ≠ [] ∧ a.all isAlnumC = true ∧
      d ≠ [] ∧ d.all isDigitC = true := by
  unfold parseEA at h
  obtain ⟨tr, _, h⟩ := List.exists_of_findSome?_eq_some h
  try simp only at h
  split at h
  case _ r1 _ =>
    obtain ⟨idr, hidr, h⟩ := List.exists_of_findSome?_eq_some h
    try simp only at h
    split at h
    case _ =>
      split at h
      case _ =>
        obtain ⟨a, d, h1, h2, h3, h4, h5⟩ := idCands_mem r1 idr hidr
        exact ⟨a, d, by rw [← Option.some.inj h, h1], h2, h3, h4, h5⟩
      case _ => exact absurd h (by simp)
    case _ => exact absurd h (by simp)
  case _ => exact absurd h (by simp)

/-! ### Helper lemmas: classifier state -/

theorem lookup_setState_self (st : List (String × MState)) (k : String)
    (v : MState) : lookupState (setState st k v) k = v := by
  induction st with
  | nil => simp [setState, lookupState]
  | cons q t ih =>
    by_cases h : q.1 = k
    · simp [setState, lookupState, h]
    · simp [setState, lookupState, h, ih]

theorem lookup_setState_ne (st : List (String × MState)) (k k2 : String)
    (v : MState) (hne : k2 ≠ k) :
    lookupState (setState st k v) k2 = lookupState st k2 := by
  induction st with
  | nil =>
    simp only [setState, lookupState]
    rw [if_neg (fun h => hne h.symm)]
  | cons q t ih =>
    by_cases h : q.1 = k
    · simp only [setState, h, if_pos rfl, if_true]
      simp only [lookupState]
      rw [if_neg (fun h2 => hne h2.symm), if_neg (by rw [h]; exact fun h2 => hne h2.symm)]
    · simp only [setState, if_neg h]
      simp only [lookupState]
      by_cases h2 : q.1 = k2
      · rw [if_pos h2, if_pos h2]
      · rw [if_neg h2, if_neg h2]
        exact ih

theorem mem_setState (st : List (String × MState)) (k : String) (v : MState)
    (p : String × MState) (h : p ∈ setState st k v) : p = (k, v) ∨ p ∈ st := by
  induction st with
  | nil => simpa [setState] using h
  | cons q t ih =>
    by_cases hq : q.1 = k
    · rw [setState, if_pos hq] at h
      rcases List.mem_cons.mp h with h | h
      · exact Or.inl h
      · exact Or.inr (List.mem_cons_self q t |> fun _ => List.mem_cons.mpr (Or.inr h))
    · rw [setState, if_neg hq] at h
      rcases List.mem_cons.mp h with h | h
      · exact Or.inr (List.mem_cons.mpr (Or.inl h))
      · rcases ih h with h | h
        · exact Or.inl h
        · exact Or.inr (List.mem_cons.mpr (Or.inr h))

theorem setState_map_fst_mem (st : List (String × MState)) (k : String)
    (v : MState) (h : k ∈ st.map Prod.fst) :
    (setState st k v).map Prod.fst = st.map Prod.fst := by
  induction st with
  | nil => simp at h
  | cons q t ih =>
    by_cases hq : q.1 = k
    · rw [setState, if_pos hq]
      simp [hq]
    · rw [setState, if_neg hq]
      simp only [List.map_cons, List.mem_cons] at h ⊢
      rcases h with h | h
      · exact absurd h.symm hq
      · rw [ih h]

theorem setState_map_fst_not_mem (st : List (String × MState)) (k : String)
    (v : MState) (h : k ∉ st.map Prod.fst) :
    (setState st k v).map Prod.fst = st.map Prod.fst ++ [k] := by
  induction st with
  | nil => simp [setState]
  | cons q t ih =>
    simp only [List.map_cons, List.mem_cons] at h
    push_neg at h
    rw [setState, if_neg (fun h2 => h.1 h2.symm)]
    simp only [List.map_cons, List.cons_append]
    rw [ih h.2]

end AVTool

namespace AVTool

/-! ### Classifier invariants -/

theorem option_bind_eq_bind {α β : Type} (a : Option α) (f : α → Option β) :
    (a >>= f) = a.bind f := rfl

theorem foldlM_option_invariant {α β : Type} (f : β → α → Option β)
    (P : β → Prop) (hstep : ∀ b a b2, P b → f b a = some b2 → P b2) :
    ∀ (l : List α) (b b2 : β), P b → List.foldlM f b l = some b2 → P b2 := by
  intro l
  induction l with
  | nil =>
    intro b b2 hb h
    simp only [List.foldlM_nil, Option.pure_def, Option.some.injEq] at h
    exact h ▸ hb
  | cons a t ih =>
    intro b b2 hb h
    rw [List.foldlM_cons] at h
    cases hfa : f b a with
    | none =>
      rw [hfa] at h
      rw [option_bind_eq_bind, Option.none_bind] at h
      exact absurd h (by simp)
    | some b1 =>
      rw [hfa] at h
      rw [option_bind_eq_bind, Option.some_bind] at h
      exact ih b1 b2 (hstep b a b1 hb hfa) h

theorem foldlM_option_append {α β : Type} (f : β → α → Option β)
    (l1 l2 : List α) (b c : β) (h : List.foldlM f b (l1 ++ l2) = some c) :
    ∃ m, List.foldlM f b l1 = some m ∧ List.foldlM f m l2 = some c := by
  rw [List.foldlM_append] at h
  cases h1 : List.foldlM f b l1 with
  | none =>
    rw [h1] at h
    rw [option_bind_eq_bind, Option.none_bind] at h
    exact absurd h (by simp)
  | some m =>
    rw [h1] at h
    rw [option_bind_eq_bind, Option.some_bind] at h
    exact ⟨m, rfl, h⟩

theorem matchStep_poisons (scope : Option String)
    (st : List (String × MState)) (n : String) (r : RawMatch)
    (hp : parseAV n = some r) (hd : r.downloadExt.isSome = true) :
    matchStep scope st n = some (setState st (asciiUpper r.id) .forbidden) := by
  simp only [matchStep, hp, hd, if_true]

theorem matchStep_forbidden (scope : Option String)
    (st st2 : List (String × MState)) (n : String) (k : String)
    (h : matchStep scope st n = some st2)
    (hf : lookupState st k = .forbidden) :
    lookupState st2 k = .forbidden := by
  simp only [matchStep] at h
  cases hp : parseAV n with
  | none =>
    rw [hp] at h
    rw [← Option.some.inj h]
    exact hf
  | some r =>
    rw [hp] at h
    simp only at h
    by_cases hdl : r.downloadExt.isSome
    · rw [if_pos hdl] at h
      rw [← Option.some.inj h]
      by_cases hk : k = asciiUpper r.id
      · rw [hk, lookup_setState_self]
      · rw [lookup_setState_ne _ _ _ _ hk]; exact hf
    · rw [if_neg hdl] at h
      cases ho : computeOrder r with
      | none => rw [ho] at h; exact absurd h (by simp)
      | some mo =>
        rw [ho] at h
        simp only at h
        by_cases hs : (scope.isNone || scope == some (asciiUpper r.id)) = true
        · rw [if_pos hs] at h
          cases hl : lookupState st (asciiUpper r.id) with
          | forbidden =>
            rw [hl] at h
            rw [← Option.some.inj h]
            exact hf
          | open_ l =>
            rw [hl] at h
            rw [← Option.some.inj h]
            by_cases hk : k = asciiUpper r.id
            · rw [hk] at hf
              rw [hf] at hl
              exact absurd hl (by simp)
            · rw [lookup_setState_ne _ _ _ _ hk]; exact hf
        · rw [if_neg hs] at h
          rw [← Option.some.inj h]
          exact hf

theorem stateWF_nil : stateWF [] := by
  constructor
  · simp
  · intro p hp; simp at hp

theorem stateWF_setState (st : List (String × MState)) (k : String)
    (v : MState) (hwf : stateWF st)
    (hk1 : asciiUpper k = k) (hk2 : isCanonicalId k = true)
    (hv : ∀ l, v = MState.open_ l → l ≠ []) :
    stateWF (setState st k v) := by
  constructor
  · by_cases hm : k ∈ st.map Prod.fst
    · rw [setState_map_fst_mem st k v hm]; exact hwf.1
    · rw [setState_map_fst_not_mem st k v hm]
      rw [List.nodup_append]
      refine ⟨hwf.1, List.nodup_singleton k, ?_⟩
      intro x hx hx2
      simp only [List.mem_singleton] at hx2
      exact hm (hx2 ▸ hx)
  · intro p hp
    rcases mem_setState st k v p hp with h | h
    · rw [h]; exact ⟨hk1, hk2, hv⟩
    · exact hwf.2 p h

theorem matchStep_wf (scope : Option String)
    (st st2 : List (String × MState)) (n : String)
    (hwf : stateWF st) (h : matchStep scope st n = some st2) : stateWF st2 := by
  simp only [matchStep] at h
  cases hp : parseAV n with
  | none =>
    rw [hp] at h
    rw [← Option.some.inj h]
    exact hwf
  | some r =>
    rw [hp] at h
    simp only at h
    have hcanon : isCanonicalId (asciiUpper r.id) = true := by
      obtain ⟨a, d, h1, h2, h3, h4, h5⟩ := parseAV_id_shape n r hp
      rw [h1]
      exact canonical_of_shape a d h2 h3 h4 h5
    by_cases hdl : r.downloadExt.isSome
    · rw [if_pos hdl] at h
      rw [← Option.some.inj h]
      exact stateWF_setState st _ _ hwf (asciiUpper_idem r.id) hcanon
        (fun l hl => by simp at hl)
    · rw [if_neg hdl] at h
      cases ho : computeOrder r with
      | none => rw [ho] at h; exact absurd h (by simp)
      | some mo =>
        rw [ho] at h
        simp only at h
        by_cases hs : (scope.isNone || scope == some (asciiUpper r.id)) = true
        · rw [if_pos hs] at h
          cases hl : lookupState st (asciiUpper r.id) with
          | forbidden =>
            rw [hl] at h
            rw [← Option.some.inj h]
            exact hwf
          | open_ l =>
            rw [hl] at h
            rw [← Option.some.inj h]
            exact stateWF_setState st _ _ hwf (asciiUpper_idem r.id) hcanon
              (fun l2 hl2 => by
                simp only [MState.open_.injEq] at hl2
                rw [← hl2]
                simp)
        · rw [if_neg hs] at h
          rw [← Option.some.inj h]
          exact hwf

theorem procNames_wf (scope : Option String) (names : List String)
    (st : List (String × MState)) (h : procNames scope names = some st) :
    stateWF st :=
  foldlM_option_invariant _ stateWF
    (fun b a b2 hb hf => matchStep_wf scope b b2 a hb hf)
    names [] st stateWF_nil h

theorem getEntries_mem (pd : String) (st : List (String × MState))
    (e : AVEntry) (h : e ∈ getEntries pd st) :
    ∃ k l, (k, MState.open_ l) ∈ st ∧ e.movie_id = asciiUpper k ∧
      e.parent_dir = pd ∧ e.own_dir = false ∧
      e.movie_files = (sortPairs l).map (fun q => q.2) ∧
      e.asset_files = none := by
  unfold getEntries at h
  rw [List.mem_filterMap] at h
  obtain ⟨p, hp, h2⟩ := h
  cases hv : p.2 with
  | forbidden => rw [hv] at h2; simp at h2
  | open_ l =>
    rw [hv] at h2
    simp only [Option.some.injEq] at h2
    have hp2 : (p.1, MState.open_ l) ∈ st := by
      have : (p.1, MState.open_ l) = p := by
        rw [← hv]
      rw [this]; exact hp
    refine ⟨p.1, l, hp2, ?_, ?_, ?_, ?_, ?_⟩ <;> rw [← h2]

theorem nodup_key_val_unique (st : List (String × MState))
    (hnd : (st.map Prod.fst).Nodup) (k : String) (v : MState)
    (hm : (k, v) ∈ st) : lookupState st k = v := by
  induction st with
  | nil => simp at hm
  | cons q t ih =>
    rcases List.mem_cons.mp hm with h | h
    · rw [← h]; simp [lookupState]
    · simp only [List.map_cons, List.nodup_cons] at hnd
      have hq : q.1 ≠ k := by
        intro he
        exact hnd.1 (he ▸ (List.mem_map_of_mem Prod.fst h))
      simp only [lookupState]
      rw [if_neg hq]
      exact ih hnd.2 h

end AVTool

namespace AVTool

/-- Claim C2: poisoning is one-way and order-independent. For every
classifier instance (any scope) and any directory listing processed without
error, if any file of the listing matches the file pattern with an
incomplete-download extension, then `get()` returns no entry for that
file's (uppercased) identifier — regardless of where in the listing the
poisoning file occurs, and irrespective of other files of the same
identifier before or after it. -/
theorem C2_poison_permanent (scope : Option String) (names : List String)
    (st : List (String × MState)) (bad : String) (r : RawMatch)
    (hproc : procNames scope names = some st)
    (hmem : bad ∈ names)
    (hp : parseAV bad = some r)
    (hd : r.downloadExt.isSome = true) :
    ∀ pd e, e ∈ getEntries pd st → e.movie_id ≠ asciiUpper r.id := by
  have hwf : stateWF st :=
    procNames_wf scope names st hproc
  obtain ⟨l1, l2, rfl⟩ := List.append_of_mem hmem
  unfold procNames at hproc
  obtain ⟨m1, _, hrest⟩ := foldlM_option_append _ _ _ _ _ hproc
  rw [List.foldlM_cons] at hrest
  rw [matchStep_poisons scope m1 bad r hp hd] at hrest
  rw [option_bind_eq_bind, Option.some_bind] at hrest
  have hforb : lookupState st (asciiUpper r.id) = .forbidden := by
    refine foldlM_option_invariant _
      (fun s => lookupState s (asciiUpper r.id) = .forbidden) ?_ l2 _ st
      (lookup_setState_self m1 (asciiUpper r.id) .forbidden) hrest
    intro b a b2 hb hf
    exact matchStep_forbidden scope b b2 a (asciiUpper r.id) hf hb
  intro pd e he heq
  obtain ⟨k, l, hkl, hid, _⟩ := getEntries_mem pd st e he
  have hk1 : asciiUpper k = k := (hwf.2 _ hkl).1
  have hkk : k = asciiUpper r.id := by
    rw [← hk1, ← hid, heq]
  have hlk : lookupState st k = MState.open_ l :=
    nodup_key_val_unique st hwf.1 k (MState.open_ l) hkl
  rw [hkk, hforb] at hlk
  exact absurd hlk (by simp)

end AVTool

namespace AVTool

/-! ### Entry well-formedness from the classifier and the matchers -/

theorem getEntries_ok_of_wf (pd : String) (st : List (String × MState))
    (e : AVEntry) (hwf : stateWF st) (he : e ∈ getEntries pd st) :
    e.movie_files ≠ [] ∧ isCanonicalId e.movie_id = true ∧
      asciiUpper e.movie_id = e.movie_id := by
  obtain ⟨k, l, hkl, hid, _, _, hmf, _⟩ := getEntries_mem pd st e he
  have hk := hwf.2 _ hkl
  refine ⟨?_, ?_, ?_⟩
  · rw [hmf]
    have hl : l ≠ [] := hk.2.2 l rfl
    intro hnil
    rw [List.map_eq_nil_iff] at hnil
    have hperm := List.perm_insertionSort pairR l
    rw [sortPairs] at hnil
    rw [hnil] at hperm
    exact hl (List.Perm.nil_eq hperm).symm
  · rw [hid, hk.1]
    exact hk.2.1
  · rw [hid]
    exact asciiUpper_idem k

theorem defaultDirMatch_entry (dp name : String)
    (children : List (String × FSNode)) (e : AVEntry)
    (h : defaultDirMatch dp name children = some (some e)) :
    e.own_dir = true ∧ e.movie_files ≠ [] ∧ isCanonicalId e.movie_id = true ∧
      asciiUpper e.movie_id = e.movie_id := by
  unfold defaultDirMatch at h
  cases hpd : parseDir name with
  | none => rw [hpd] at h; exact absurd (Option.some.inj h) (by simp)
  | some rawId =>
    rw [hpd] at h
    simp only at h
    cases hpn : procNames (some (asciiUpper rawId)) (fileNamesOf children) with
    | none => rw [hpn] at h; exact absurd h (by simp)
    | some st =>
      rw [hpn] at h
      simp only at h
      cases hge : getEntries dp st with
      | nil => rw [hge] at h; exact absurd (Option.some.inj h) (by simp)
      | cons e0 rest =>
        rw [hge] at h
        simp only [Option.some.injEq] at h
        have he0 : e0 ∈ getEntries dp st := by
          rw [hge]; exact List.mem_cons_self e0 rest
        have hok := getEntries_ok_of_wf dp st e0
          (procNames_wf _ _ _ hpn) he0
        rw [← h]
        exact ⟨rfl, hok.1, hok.2.1, hok.2.2⟩

theorem everAverMatch_entry (dp name : String)
    (children : List (String × FSNode)) (e : AVEntry)
    (h : everAverMatch dp name children = some e) :
    e.own_dir = true ∧ e.movie_files ≠ [] ∧
      isCanonicalId (asciiUpper e.movie_id) = true := by
  unfold everAverMatch at h
  cases hpe : parseEA name with
  | none => rw [hpe] at h; exact absurd h (by simp)
  | some mid =>
    rw [hpe] at h
    simp only at h
    obtain ⟨p, _, h⟩ := List.exists_of_findSome?_eq_some h
    try simp only at h
    split at h
    case _ =>
      simp only [Option.some.injEq] at h
      obtain ⟨a, d, h1, h2, h3, h4, h5⟩ := parseEA_shape name mid hpe
      rw [← h]
      refine ⟨rfl, by simp, ?_⟩
      show isCanonicalId (asciiUpper mid) = true
      rw [h1]
      exact canonical_of_shape a d h2 h3 h4 h5
    case _ => exact absurd h (by simp)

theorem tryMatchers_entry (dp name : String)
    (children : List (String × FSNode)) (e : AVEntry)
    (h : tryMatchers dp name children = some (some e)) :
    e.own_dir = true ∧ e.movie_files ≠ [] ∧
      isCanonicalId (asciiUpper e.movie_id) = true := by
  unfold tryMatchers at h
  cases hd : defaultDirMatch dp name children with
  | none => rw [hd] at h; exact absurd h (by simp)
  | some o =>
    rw [hd] at h
    cases o with
    | some e0 =>
      simp only [Option.some.injEq] at h
      rw [h] at hd
      obtain ⟨h1, h2, h3, h4⟩ := defaultDirMatch_entry dp name children e hd
      exact ⟨h1, h2, by rw [h4]; exact h3⟩
    | none =>
      simp only at h
      exact everAverMatch_entry dp name children e (Option.some.inj h)

/-! ### Scanner structure -/

theorem fileNamesOf_cons_file (n : String) (rest : List (String × FSNode)) :
    fileNamesOf ((n, FSNode.file) :: rest) = n :: fileNamesOf rest := rfl

theorem fileNamesOf_cons_dir (n : String) (cs rest : List (String × FSNode)) :
    fileNamesOf ((n, FSNode.dir cs) :: rest) = fileNamesOf rest := rfl

theorem scanKids_split (cs : List (String × FSNode)) (dp : String)
    (acc : List AVEntry) (st : List (String × MState))
    (res : List AVEntry × List (String × MState))
    (h : scanKids dp cs acc st = some res) :
    ∃ es st2, collectSub dp cs = some es ∧
      List.foldlM (fun s n => matchStep none s n) st (fileNamesOf cs) = some st2 ∧
      res = (acc ++ es, st2) := by
  induction cs generalizing acc st with
  | nil =>
    refine ⟨[], st, rfl, rfl, ?_⟩
    simp only [scanKids, Option.some.injEq] at h
    rw [← h]
    simp
  | cons c rest ih =>
    rcases c with ⟨n, cnode⟩
    cases cnode with
    | file =>
      simp only [scanKids] at h
      cases hm : matchStep none st n with
      | none => rw [hm] at h; exact absurd h (by simp)
      | some st3 =>
        rw [hm] at h
        simp only at h
        obtain ⟨es, st2, h1, h2, h3⟩ := ih acc st3 h
        refine ⟨es, st2, ?_, ?_, h3⟩
        · simpa [collectSub] using h1
        · rw [fileNamesOf_cons_file, List.foldlM_cons, hm, option_bind_eq_bind,
            Option.some_bind]
          exact h2
    | dir cs2 =>
      simp only [scanKids] at h
      cases hs : scanDir dp n cs2 with
      | none => rw [hs] at h; exact absurd h (by simp)
      | some es0 =>
        rw [hs] at h
        simp only at h
        obtain ⟨es, st2, h1, h2, h3⟩ := ih (acc ++ es0) st h
        refine ⟨es0 ++ es, st2, ?_, ?_, ?_⟩
        · simp only [collectSub, hs]
          rw [h1]
        · rw [fileNamesOf_cons_dir]
          exact h2
        · rw [h3, List.append_assoc]

end AVTool

namespace AVTool

theorem collectSub_mem (dp : String) (cs : List (String × FSNode))
    (es : List AVEntry) (e : AVEntry)
    (h : collectSub dp cs = some es) (he : e ∈ es) :
    ∃ n cs2 l, (n, FSNode.dir cs2) ∈ cs ∧ scanDir dp n cs2 = some l ∧ e ∈ l := by
  induction cs generalizing es with
  | nil =>
    simp only [collectSub, Option.some.injEq] at h
    rw [← h] at he
    simp at he
  | cons c rest ih =>
    rcases c with ⟨n, cnode⟩
    cases cnode with
    | file =>
      simp only [collectSub] at h
      obtain ⟨n2, cs2, l, h1, h2, h3⟩ := ih es h he
      exact ⟨n2, cs2, l, List.mem_cons.mpr (Or.inr h1), h2, h3⟩
    | dir cs2 =>
      simp only [collectSub] at h
      cases hs : scanDir dp n cs2 with
      | none => rw [hs] at h; exact absurd h (by simp)
      | some es0 =>
        rw [hs] at h
        simp only at h
        cases hc : collectSub dp rest with
        | none => rw [hc] at h; exact absurd h (by simp)
        | some es1 =>
          rw [hc] at h
          simp only [Option.some.injEq] at h
          rw [← h] at he
          rcases List.mem_append.mp he with he2 | he2
          · exact ⟨n, cs2, es0, List.mem_cons_self _ _, hs, he2⟩
          · obtain ⟨n2, cs3, l2, h1, h2, h3⟩ := ih es1 hc he2
            exact ⟨n2, cs3, l2, List.mem_cons.mpr (Or.inr h1), h2, h3⟩

theorem scanDir_entries_ok (fuel : Nat) :
    ∀ (pp name : String) (children : List (String × FSNode)),
      sizeOf children ≤ fuel →
      ∀ l e, scanDir pp name children = some l → e ∈ l →
        e.movie_files ≠ [] ∧ isCanonicalId (asciiUpper e.movie_id) = true := by
  induction fuel with
  | zero =>
    intro pp name children hle l e h he
    exfalso
    cases children with
    | nil => simp at hle
    | cons c rest => simp at hle
  | succ m ih =>
    intro pp name children hle l e h he
    simp only [scanDir] at h
    cases htm : tryMatchers (pp ++ "/" ++ name) name children with
    | none => rw [htm] at h; exact absurd h (by simp)
    | some o =>
      rw [htm] at h
      cases o with
      | some e0 =>
        simp only [Option.some.injEq] at h
        rw [← h] at he
        simp only [List.mem_singleton] at he
        obtain ⟨_, h2, h3⟩ := tryMatchers_entry _ _ _ _ htm
        rw [he]
        exact ⟨h2, h3⟩
      | none =>
        simp only at h
        cases hsk : scanKids (pp ++ "/" ++ name) children [] [] with
        | none => rw [hsk] at h; exact absurd h (by simp)
        | some r =>
          rw [hsk] at h
          simp only [Option.some.injEq] at h
          obtain ⟨es, st2, hcs, hfold, hr⟩ :=
            scanKids_split children (pp ++ "/" ++ name) [] [] r hsk
          rw [← h, hr] at he
          simp only [List.nil_append] at he
          rcases List.mem_append.mp he with he2 | he2
          · obtain ⟨n2, cs2, l2, hmem, hsd, hel⟩ :=
              collectSub_mem _ _ _ _ hcs he2
            have hsz : sizeOf cs2 ≤ m := by
              have := List.sizeOf_lt_of_mem hmem
              simp only [Prod.mk.sizeOf_spec, FSNode.dir.sizeOf_spec] at this
              omega
            exact ih (pp ++ "/" ++ name) n2 cs2 hsz l2 e hsd hel
          · have hwf : stateWF st2 :=
              foldlM_option_invariant _ stateWF
                (fun b a b2 hb hf => matchStep_wf none b b2 a hb hf)
                (fileNamesOf children) [] st2 stateWF_nil hfold
            obtain ⟨h1, h2, h3⟩ := getEntries_ok_of_wf _ _ _ hwf he2
            exact ⟨h1, by rw [h3]; exact h2⟩

/-- Claim C6: scanner precedence. (1) If a directory matcher matches a
directory, the scanner yields exactly the one resulting entry for it and
nothing derived from its children. (2) For an unmatched directory, the
yielded list is the entries of the matched subdirectories (in listing
order) followed by the entries assembled from the loose files directly
inside the directory — all loose-file entries come after all subdirectory
entries. -/
theorem C6_scanner_precedence :
    (∀ (pp name : String) (children : List (String × FSNode)) (e : AVEntry),
      tryMatchers (pp ++ "/" ++ name) name children = some (some e) →
      scanDir pp name children = some [e]) ∧
    (∀ (pp name : String) (children : List (String × FSNode))
      (l : List AVEntry),
      tryMatchers (pp ++ "/" ++ name) name children = some none →
      scanDir pp name children = some l →
      ∃ subEntries st,
        collectSub (pp ++ "/" ++ name) children = some subEntries ∧
        procNames none (fileNamesOf children) = some st ∧
        l = subEntries ++ getEntries (pp ++ "/" ++ name) st) := by
  constructor
  · intro pp name children e htm
    simp only [scanDir, htm]
  · intro pp name children l htm h
    simp only [scanDir, htm] at h
    cases hsk : scanKids (pp ++ "/" ++ name) children [] [] with
    | none => rw [hsk] at h; exact absurd h (by simp)
    | some r =>
      rw [hsk] at h
      simp only [Option.some.injEq] at h
      obtain ⟨es, st2, hcs, hfold, hr⟩ :=
        scanKids_split children (pp ++ "/" ++ name) [] [] r hsk
      refine ⟨es, st2, hcs, hfold, ?_⟩
      rw [← h, hr]
      simp

/-- Witness for C6 at a concrete tree: the directory `/r/ABC-12` containing
one movie file is matched, so the scanner yields exactly one entry for it. -/
theorem C6_scanner_precedence_witness :
    scanDir "/r" "ABC-12" [("ABC-12.mp4", FSNode.file)] =
      some [⟨"ABC-12", "/r/ABC-12", true, ["ABC-12.mp4"], none⟩] :=
  C6_scanner_precedence.1 "/r" "ABC-12" [("ABC-12.mp4", FSNode.file)]
    ⟨"ABC-12", "/r/ABC-12", true, ["ABC-12.mp4"], none⟩ (by decide)

end AVTool

namespace AVTool

/-- Claim C9 (amended): every Entry has a non-empty `movie_files`; entries
from `AVFilesMatcher.get` and from the default directory matcher carry a
canonical uppercase identifier; the EverAver matcher preserves the original
case of the captured identifier, so its entries (and hence arbitrary
scanner entries) are canonical only after uppercasing. -/
theorem C9_entry_invariant_amended :
    (∀ scope names st pd e, procNames scope names = some st →
      e ∈ getEntries pd st →
      e.movie_files ≠ [] ∧ isCanonicalId e.movie_id = true) ∧
    (∀ dp name children e, defaultDirMatch dp name children = some (some e) →
      e.movie_files ≠ [] ∧ isCanonicalId e.movie_id = true) ∧
    (∀ dp name children e, everAverMatch dp name children = some e →
      e.movie_files ≠ [] ∧ isCanonicalId (asciiUpper e.movie_id) = true) ∧
    (∀ pp name children l e, scanDir pp name children = some l → e ∈ l →
      e.movie_files ≠ [] ∧ isCanonicalId (asciiUpper e.movie_id) = true) := by
  refine ⟨?_, ?_, ?_, ?_⟩
  · intro scope names st pd e hproc he
    obtain ⟨h1, h2, _⟩ :=
      getEntries_ok_of_wf pd st e (procNames_wf scope names st hproc) he
    exact ⟨h1, h2⟩
  · intro dp name children e h
    obtain ⟨_, h2, h3, _⟩ := defaultDirMatch_entry dp name children e h
    exact ⟨h2, h3⟩
  · intro dp name children e h
    obtain ⟨_, h2, h3⟩ := everAverMatch_entry dp name children e h
    exact ⟨h2, h3⟩
  · intro pp name children l e h he
    exact scanDir_entries_ok (sizeOf children) pp name children
      (Nat.le_refl _) l e h he

/-- C9 counterexample: the EverAver matcher returns the captured identifier
without uppercasing, so for the directory name `x [abc-1]` the produced
entry's movieId is `abc-1`, which does not match the canonical uppercase
pattern — refuting the claim that every Entry's movieId is canonical
uppercase. -/
theorem C9_everaver_lowercase_id :
    everAverMatch "/r/x [abc-1]" "x [abc-1]" [("x [abc-1].mp4", FSNode.file)] =
      some ⟨"abc-1", "/r/x [abc-1]", true, ["x [abc-1].mp4"], some []⟩ ∧
    isCanonicalId "abc-1" = false := by
  constructor
  · decide
  · decide

/-- Witness for the amended C9 at concrete inputs. -/
theorem C9_entry_invariant_amended_witness :
    (⟨"ABC-12", "d", false, ["ABC-12.mp4"], none⟩ : AVEntry).movie_files ≠ [] ∧
    isCanonicalId
      (⟨"ABC-12", "d", false, ["ABC-12.mp4"], none⟩ : AVEntry).movie_id = true :=
  C9_entry_invariant_amended.1 none ["ABC-12.mp4"]
    [("ABC-12", MState.open_ [(0, "ABC-12.mp4")])] "d"
    ⟨"ABC-12", "d", false, ["ABC-12.mp4"], none⟩ (by decide) (by decide)

/-- Claim C3 (amended): whenever the default directory matcher returns an
entry, `own_dir` is set to true unconditionally — no check for extra files
in the directory is performed. -/
theorem C3_owndir_unconditional (dp name : String)
    (children : List (String × FSNode)) (e : AVEntry)
    (h : defaultDirMatch dp name children = some (some e)) :
    e.own_dir = true :=
  (defaultDirMatch_entry dp name children e h).1

/-- C3 counterexample: the directory `ABC-12` contains `extra.txt`, which is
neither a recognized movie file for `ABC-12` nor an asset file named after
the directory or the identifier, yet the returned entry still has
`own_dir = true` — refuting the claim that ownDir is true only when no such
extra file exists. -/
theorem C3_owndir_extra_file :
    defaultDirMatch "/r/ABC-12" "ABC-12"
      [("ABC-12.mp4", FSNode.file), ("extra.txt", FSNode.file)] =
      some (some ⟨"ABC-12", "/r/ABC-12", true, ["ABC-12.mp4"], none⟩) ∧
    specNoExtraFiles "ABC-12" "ABC-12"
      [("ABC-12.mp4", FSNode.file), ("extra.txt", FSNode.file)] = false := by
  constructor
  · decide
  · decide

/-- Witness for the amended C3. -/
theorem C3_owndir_unconditional_witness :
    (⟨"ABC-12", "/r/ABC-12", true, ["ABC-12.mp4"], none⟩ : AVEntry).own_dir =
      true :=
  C3_owndir_unconditional "/r/ABC-12" "ABC-12"
    [("ABC-12.mp4", FSNode.file), ("extra.txt", FSNode.file)]
    ⟨"ABC-12", "/r/ABC-12", true, ["ABC-12.mp4"], none⟩ (by decide)

/-- Claim C8: for a filename matched by the file pattern whose ordinal
capture is a parenthesized single letter (no digit ordinal group present)
and which is not an incomplete download, the numeric order assigned to the
file is the character code of the letter minus the character code of the
digit zero (48) — not a 1-based alphabetic index. -/
theorem C8_letter_ordinal (name : String) (r : RawMatch) (c : Char)
    (hp : parseAV name = some r)
    (h1 : r.order1 = none) (h2 : r.order2 = none) (h3 : r.order3 = some c)
    (hd : r.downloadExt = none) :
    computeOrder r = some (c.toNat - 48) ∧
    matchStep none [] name =
      some [(asciiUpper r.id, MState.open_ [(c.toNat - 48, name)])] := by
  have hco : computeOrder r = some (c.toNat - 48) := by
    simp [computeOrder, stepOrd, pyOrdStr, h1, h2, h3, toList_mk]
  refine ⟨hco, ?_⟩
  simp [matchStep, hp, hd, hco, lookupState, setState]

/-- Witness for C8: the letter ordinal `(a)` yields order 49, far outside
the 0-9 range a 1-based letter index would give. -/
theorem C8_letter_ordinal_witness :
    computeOrder ⟨"ABC-12", none, none, some 'a', "mp4", none⟩ = some 49 ∧
    matchStep none [] "ABC-12(a).mp4" =
      some [("ABC-12", MState.open_ [(49, "ABC-12(a).mp4")])] := by
  have h := C8_letter_ordinal "ABC-12(a).mp4"
    ⟨"ABC-12", none, none, some 'a', "mp4", none⟩ 'a'
    (by decide) rfl rfl rfl rfl
  exact ⟨h.1, by simpa using h.2⟩

end AVTool

namespace AVTool

/-! ### The tuple order used by `m_list.sort()` is total and transitive -/

theorem charEq_of_toNat (a b : Char) (h : a.toNat = b.toNat) : a = b :=
  Char.ext (UInt32.ext h)

theorem charsLt_total (x : List Char) :
    ∀ y, charsLt x y = true ∨ x = y ∨ charsLt y x = true := by
  induction x with
  | nil =>
    intro y
    cases y with
    | nil => exact Or.inr (Or.inl rfl)
    | cons b bs => exact Or.inl (by simp [charsLt])
  | cons a as_ ih =>
    intro y
    cases y with
    | nil => exact Or.inr (Or.inr (by simp [charsLt]))
    | cons b bs =>
      by_cases hab : a = b
      · subst hab
        rcases ih bs with h | h | h
        · exact Or.inl (by simp [charsLt, h])
        · exact Or.inr (Or.inl (by rw [h]))
        · exact Or.inr (Or.inr (by simp [charsLt, h]))
      · have hne : a.toNat ≠ b.toNat := fun h => hab (charEq_of_toNat a b h)
        rcases Nat.lt_trichotomy a.toNat b.toNat with h | h | h
        · exact Or.inl (by simp [charsLt, Nat.blt_eq, h])
        · exact absurd h hne
        · exact Or.inr (Or.inr (by simp [charsLt, Nat.blt_eq, h]))

theorem charsLt_trans (x : List Char) :
    ∀ y z, charsLt x y = true → charsLt y z = true → charsLt x z = true := by
  induction x with
  | nil =>
    intro y z hxy hyz
    cases y with
    | nil => simp [charsLt] at hxy
    | cons b bs =>
      cases z with
      | nil => simp [charsLt] at hyz
      | cons c cs => simp [charsLt]
  | cons a as_ ih =>
    intro y z hxy hyz
    cases y with
    | nil => simp [charsLt] at hxy
    | cons b bs =>
      cases z with
      | nil => simp [charsLt] at hyz
      | cons c cs =>
        simp only [charsLt, Bool.or_eq_true, Bool.and_eq_true, Nat.blt_eq,
          beq_iff_eq] at hxy hyz ⊢
        rcases hxy with hxy | ⟨hab, hxy⟩
        · rcases hyz with hyz | ⟨hbc, _⟩
          · exact Or.inl (Nat.lt_trans hxy hyz)
          · exact Or.inl (hbc ▸ hxy)
        · rcases hyz with hyz | ⟨hbc, hyz⟩
          · exact Or.inl (hab ▸ hyz)
          · exact Or.inr ⟨hab.trans hbc, ih bs cs hxy hyz⟩

theorem strEq_of_toList (a b : String) (h : a.toList = b.toList) : a = b := by
  cases a
  cases b
  exact congrArg String.mk (by simpa using h)

theorem pairLe_total (a b : Nat × String) :
    pairLe a b = true ∨ pairLe b a = true := by
  unfold pairLe
  rcases Nat.lt_trichotomy a.1 b.1 with h | h | h
  · exact Or.inl (by simp [Nat.blt_eq, h])
  · rcases charsLt_total a.2.toList b.2.toList with h2 | h2 | h2
    · have h3 : charsLt a.2.data b.2.data = true := h2
      exact Or.inl (by simp [strLtB, Nat.blt_eq, h, h3])
    · exact Or.inl (by simp [h, strEq_of_toList a.2 b.2 h2])
    · have h3 : charsLt b.2.data a.2.data = true := h2
      exact Or.inr (by simp [strLtB, Nat.blt_eq, h, h3])
  · exact Or.inr (by simp [Nat.blt_eq, h])

theorem pairLe_trans (a b c : Nat × String)
    (hab : pairLe a b = true) (hbc : pairLe b c = true) :
    pairLe a c = true := by
  unfold pairLe at hab hbc ⊢
  simp only [Bool.or_eq_true, Bool.and_eq_true, Nat.blt_eq,
    beq_iff_eq] at hab hbc ⊢
  rcases hab with h1 | ⟨h1, h2⟩
  · rcases hbc with h3 | ⟨h3, _⟩
    · exact Or.inl (Nat.lt_trans h1 h3)
    · exact Or.inl (h3 ▸ h1)
  · rcases hbc with h3 | ⟨h3, h4⟩
    · exact Or.inl (h1 ▸ h3)
    · refine Or.inr ⟨h1.trans h3, ?_⟩
      rcases h2 with h2 | h2
      · rcases h4 with h4 | h4
        · exact Or.inl (h2.trans h4)
        · exact Or.inr (h2 ▸ h4)
      · rcases h4 with h4 | h4
        · exact Or.inr (h4 ▸ h2)
        · exact Or.inr (charsLt_trans _ _ _ h2 h4)

instance : IsTotal (Nat × String) pairR :=
  ⟨fun a b => pairLe_total a b⟩

instance : IsTrans (Nat × String) pairR :=
  ⟨fun a b c hab hbc => pairLe_trans a b c hab hbc⟩

/-- Claim C4 (amended): for every classifier state, each returned entry's
`movie_files` is the second projection of a permutation of the identifier's
matched `(order, name)` pairs that is sorted by the Python tuple order —
ascending numeric order with ties broken by ascending filename (NOT by
insertion order). The concrete example of the claim holds: `ABC-12.mp4`,
`ABC-12-2.mp4`, `ABC-12(3).mp4` are grouped under `ABC-12` with orders
0, 2, 3 and returned in that ascending order. -/
theorem C4_order_sorting_amended :
    (∀ pd st e, e ∈ getEntries pd st →
      ∃ k l, (k, MState.open_ l) ∈ st ∧ e.movie_id = asciiUpper k ∧
        e.movie_files = (sortPairs l).map (fun q => q.2) ∧
        (sortPairs l).Perm l ∧ List.Pairwise pairR (sortPairs l)) ∧
    (procNames none ["ABC-12.mp4", "ABC-12-2.mp4", "ABC-12(3).mp4"] =
      some [("ABC-12", MState.open_
        [(0, "ABC-12.mp4"), (2, "ABC-12-2.mp4"), (3, "ABC-12(3).mp4")])] ∧
     getEntries "d" [("ABC-12", MState.open_
        [(0, "ABC-12.mp4"), (2, "ABC-12-2.mp4"), (3, "ABC-12(3).mp4")])] =
      [⟨"ABC-12", "d", false,
        ["ABC-12.mp4", "ABC-12-2.mp4", "ABC-12(3).mp4"], none⟩]) := by
  constructor
  · intro pd st e he
    obtain ⟨k, l, hkl, hid, _, _, hmf, _⟩ := getEntries_mem pd st e he
    exact ⟨k, l, hkl, hid, hmf, List.perm_insertionSort pairR l,
      List.sorted_insertionSort pairR l⟩
  · exact ⟨by decide, by decide⟩

/-- C4 counterexample: two files with equal order 0 observed in the order
`b` then `a`; the claim's tie-break-by-insertion rule predicts `[b, a]`
(see `specSortTiesByInsertion`), but `get()` returns `[a, b]` because
Python's tuple sort breaks ties by the filename string. -/
theorem C4_tie_not_insertion_order :
    procNames none ["ABC-12 b.mp4", "ABC-12 a.mp4"] =
      some [("ABC-12",
        MState.open_ [(0, "ABC-12 b.mp4"), (0, "ABC-12 a.mp4")])] ∧
    getEntries "d"
      [("ABC-12", MState.open_ [(0, "ABC-12 b.mp4"), (0, "ABC-12 a.mp4")])] =
      [⟨"ABC-12", "d", false, ["ABC-12 a.mp4", "ABC-12 b.mp4"], none⟩] ∧
    specSortTiesByInsertion [(0, "ABC-12 b.mp4"), (0, "ABC-12 a.mp4")] =
      ["ABC-12 b.mp4", "ABC-12 a.mp4"] ∧
    (["ABC-12 a.mp4", "ABC-12 b.mp4"] : List String) ≠
      ["ABC-12 b.mp4", "ABC-12 a.mp4"] := by
  refine ⟨by decide, by decide, by decide, by decide⟩

/-- Witness for the amended C4 at a concrete state. -/
theorem C4_order_sorting_amended_witness :
    ∃ k l, (k, MState.open_ l) ∈
        [("ABC-12", MState.open_
          [(0, "ABC-12.mp4"), (2, "ABC-12-2.mp4"), (3, "ABC-12(3).mp4")])] ∧
      (⟨"ABC-12", "d", false,
        ["ABC-12.mp4", "ABC-12-2.mp4", "ABC-12(3).mp4"], none⟩ :
          AVEntry).movie_id = asciiUpper k ∧
      (⟨"ABC-12", "d", false,
        ["ABC-12.mp4", "ABC-12-2.mp4", "ABC-12(3).mp4"], none⟩ :
          AVEntry).movie_files = (sortPairs l).map (fun q => q.2) ∧
      (sortPairs l).Perm l ∧ List.Pairwise pairR (sortPairs l) :=
  C4_order_sorting_amended.1 "d"
    [("ABC-12", MState.open_
      [(0, "ABC-12.mp4"), (2, "ABC-12-2.mp4"), (3, "ABC-12(3).mp4")])]
    ⟨"ABC-12", "d", false,
      ["ABC-12.mp4", "ABC-12-2.mp4", "ABC-12(3).mp4"], none⟩ (by decide)

end AVTool

namespace AVTool

/-! ### Dict equality is an equivalence on the reachable states -/

theorem dlookup_mem (k v : String) (l : List (String × String))
    (h : dlookup k l = some v) : (k, v) ∈ l := by
  induction l with
  | nil => simp [dlookup] at h
  | cons kv rest ih =>
    simp only [dlookup] at h
    by_cases hk : kv.1 = k
    · rw [if_pos (by simpa using hk)] at h
      rcases kv with ⟨k1, v1⟩
      simp only [Option.some.injEq] at h
      simp only at hk
      rw [← hk, ← h]
      exact List.mem_cons_self _ _
    · rw [if_neg (by simpa using hk)] at h
      exact List.mem_cons.mpr (Or.inr (ih h))

theorem dictEqb_iff (a b : List (String × String)) :
    dictEqb a b = true ↔
      (∀ kv ∈ a, dlookup kv.1 b = some kv.2) ∧
      (∀ kv ∈ b, dlookup kv.1 a = some kv.2) := by
  unfold dictEqb
  rw [Bool.and_eq_true, List.all_eq_true, List.all_eq_true]
  constructor
  · exact fun ⟨h1, h2⟩ =>
      ⟨fun kv hkv => by simpa using h1 kv hkv,
       fun kv hkv => by simpa using h2 kv hkv⟩
  · exact fun ⟨h1, h2⟩ =>
      ⟨fun kv hkv => by simp [h1 kv hkv],
       fun kv hkv => by simp [h2 kv hkv]⟩

theorem dictEqb_symm (a b : List (String × String)) :
    dictEqb a b = dictEqb b a := by
  unfold dictEqb
  exact Bool.and_comm _ _

theorem dictEqb_trans (a b c : List (String × String))
    (h1 : dictEqb a b = true) (h2 : dictEqb b c = true) :
    dictEqb a c = true := by
  rw [dictEqb_iff] at h1 h2 ⊢
  constructor
  · intro kv hkv
    have hb := h1.1 kv hkv
    have hmem := dlookup_mem _ _ _ hb
    exact h2.1 (kv.1, kv.2) hmem
  · intro kv hkv
    have hb := h2.2 kv hkv
    have hmem := dlookup_mem _ _ _ hb
    exact h1.2 (kv.1, kv.2) hmem

/-! ### Adjacent-pair equality versus pairwise equality -/

theorem chain_head (f : MovieCodec → MovieCodec → Bool)
    (htrans : ∀ x y z, f x y = true → f y z = true → f x z = true)
    (c : MovieCodec) (rest : List MovieCodec)
    (h : adjacentAllB f (c :: rest) = true) :
    ∀ y ∈ rest, f c y = true := by
  induction rest generalizing c with
  | nil => intro y hy; simp at hy
  | cons b t ih =>
    intro y hy
    simp only [adjacentAllB, Bool.and_eq_true] at h
    rcases List.mem_cons.mp hy with rfl | hy2
    · exact h.1
    · exact htrans c b y h.1 (ih b h.2 y hy2)

theorem chain_pairwise (f : MovieCodec → MovieCodec → Bool)
    (hsymm : ∀ x y, f x y = true → f y x = true)
    (htrans : ∀ x y z, f x y = true → f y z = true → f x z = true)
    (cs : List MovieCodec) (hlen : 2 ≤ cs.length)
    (h : adjacentAllB f cs = true) :
    ∀ x ∈ cs, ∀ y ∈ cs, f x y = true := by
  cases cs with
  | nil => simp at hlen
  | cons a t0 =>
    cases t0 with
    | nil => simp at hlen
    | cons b t =>
      intro x hx y hy
      have key : ∀ z ∈ a :: b :: t, f a z = true := by
        intro z hz
        rcases List.mem_cons.mp hz with heq | hz2
        · rw [heq]
          have h1 : f a b = true := by
            simp only [adjacentAllB, Bool.and_eq_true] at h
            exact h.1
          exact htrans a b a h1 (hsymm a b h1)
        · exact chain_head f htrans a (b :: t) h z hz2
      exact htrans x a y (hsymm a x (key x hx)) (key y hy)

theorem pairwise_chain (f : MovieCodec → MovieCodec → Bool) :
    ∀ cs : List MovieCodec,
      (∀ x ∈ cs, ∀ y ∈ cs, f x y = true) → adjacentAllB f cs = true := by
  intro cs
  induction cs with
  | nil => intro _; rfl
  | cons a t ih =>
    intro h
    cases t with
    | nil => rfl
    | cons b t2 =>
      simp only [adjacentAllB, Bool.and_eq_true]
      refine ⟨h a (List.mem_cons_self _ _) b
        (List.mem_cons.mpr (Or.inr (List.mem_cons_self _ _))), ?_⟩
      exact ih (fun x hx y hy =>
        h x (List.mem_cons.mpr (Or.inr hx)) y (List.mem_cons.mpr (Or.inr hy)))

/-- Claim C5: per-track copy decisions. `audioCopy` holds iff there is a
single input or all inputs' audio signatures are pairwise dict-equal;
`videoCopy` additionally requires the first (shared) video signature's
codec name to be in the accepted set (h264/hevc, see
`isDesiredVideoCodec`). With at least two inputs: differing audio but
copy-eligible shared video selects the concat-filter re-encode pipeline,
while fully copy-eligible signatures select the concat-copy pipeline. -/
theorem C5_copy_decisions :
    (∀ cs : List MovieCodec, cs ≠ [] →
      (audioCopy cs = true ↔
        (cs.length = 1 ∨ ∀ x ∈ cs, ∀ y ∈ cs, dictEqb x.audio y.audio = true))) ∧
    (∀ (c0 : MovieCodec) (t : List MovieCodec),
      videoCopy (c0 :: t) = true ↔
        (((c0 :: t).length = 1 ∨
          ∀ x ∈ c0 :: t, ∀ y ∈ c0 :: t, dictEqb x.video y.video = true) ∧
         isDesiredVideoCodec c0 = true)) ∧
    (∀ (inputs : List String) (output : String) (cs : List MovieCodec),
      cs.length = inputs.length → 2 ≤ inputs.length →
      audioCopy cs = false → videoCopy cs = true →
      selectPipeline inputs output cs = Pipeline.reencodeConcat) ∧
    (∀ (inputs : List String) (output : String) (cs : List MovieCodec),
      cs.length = inputs.length → 2 ≤ inputs.length →
      audioCopy cs = true → videoCopy cs = true →
      selectPipeline inputs output cs = Pipeline.concatCopy) := by
  have hsymmA : ∀ x y : MovieCodec, dictEqb x.audio y.audio = true →
      dictEqb y.audio x.audio = true := by
    intro x y h
    rw [dictEqb_symm]
    exact h
  have htransA : ∀ x y z : MovieCodec, dictEqb x.audio y.audio = true →
      dictEqb y.audio z.audio = true → dictEqb x.audio z.audio = true :=
    fun x y z h1 h2 => dictEqb_trans _ _ _ h1 h2
  have hsymmV : ∀ x y : MovieCodec, dictEqb x.video y.video = true →
      dictEqb y.video x.video = true := by
    intro x y h
    rw [dictEqb_symm]
    exact h
  have htransV : ∀ x y z : MovieCodec, dictEqb x.video y.video = true →
      dictEqb y.video z.video = true → dictEqb x.video z.video = true :=
    fun x y z h1 h2 => dictEqb_trans _ _ _ h1 h2
  refine ⟨?_, ?_, ?_, ?_⟩
  · intro cs hne
    unfold audioCopy audioNeedTranscode
    rw [Bool.not_not, Bool.or_eq_true, beq_iff_eq]
    constructor
    · intro h
      rcases h with h | h
      · exact Or.inl h
      · rcases Nat.lt_or_ge cs.length 2 with hlen | hlen
        · refine Or.inl ?_
          cases cs with
          | nil => exact absurd rfl hne
          | cons a t =>
            cases t with
            | nil => rfl
            | cons b t2 =>
              exfalso
              simp only [List.length_cons] at hlen
              omega
        · exact Or.inr (chain_pairwise _ hsymmA htransA cs hlen h)
    · intro h
      rcases h with h | h
      · exact Or.inl h
      · exact Or.inr (pairwise_chain _ cs h)
  · intro c0 t
    unfold videoCopy videoNeedTranscode
    rw [Bool.not_not, Bool.and_eq_true, Bool.or_eq_true, beq_iff_eq]
    constructor
    · intro ⟨h, hd⟩
      refine ⟨?_, hd⟩
      rcases h with h | h
      · exact Or.inl h
      · rcases Nat.lt_or_ge (c0 :: t).length 2 with hlen | hlen
        · have ht : t = [] := by
            cases t with
            | nil => rfl
            | cons b t2 =>
              exfalso
              simp only [List.length_cons] at hlen
              omega
          exact Or.inl (by rw [ht]; rfl)
        · exact Or.inr (chain_pairwise _ hsymmV htransV (c0 :: t) hlen h)
    · intro ⟨h, hd⟩
      refine ⟨?_, hd⟩
      rcases h with h | h
      · exact Or.inl h
      · exact Or.inr (pairwise_chain _ (c0 :: t) h)
  · intro inputs output cs _ hlen ha hv
    unfold selectPipeline
    rw [ha]
    simp only [Bool.false_and, Bool.false_eq_true, if_false]
    rw [if_pos (by omega)]
  · intro inputs output cs _ hlen ha hv
    unfold selectPipeline
    rw [ha, hv]
    simp only [Bool.and_self, if_true]
    rw [if_pos (by omega)]

/-- Witness for C5 at the concrete codec signatures of the spec's test:
equal h264 video with differing audio selects the re-encode pipeline;
identical copy-eligible signatures select concat-copy. -/
theorem C5_copy_decisions_witness :
    selectPipeline ["A.mp4", "B.mp4"] "out.mp4"
      [⟨[("codec_name", "h264")], [("codec_name", "aac")]⟩,
       ⟨[("codec_name", "h264")], [("codec_name", "mp3")]⟩] =
      Pipeline.reencodeConcat ∧
    selectPipeline ["A.mp4", "B.mp4"] "out.mp4"
      [⟨[("codec_name", "h264")], [("codec_name", "aac")]⟩,
       ⟨[("codec_name", "h264")], [("codec_name", "aac")]⟩] =
      Pipeline.concatCopy :=
  ⟨C5_copy_decisions.2.2.1 ["A.mp4", "B.mp4"] "out.mp4" _
      (by decide) (by decide) (by decide) (by decide),
   C5_copy_decisions.2.2.2 ["A.mp4", "B.mp4"] "out.mp4" _
      (by decide) (by decide) (by decide) (by decide)⟩

end AVTool

namespace AVTool

/-! ### Pointwise evaluation of the filesystem operations -/

theorem fsWrite_ne (w : String) (v : Nat) (fs : FS) (q : String)
    (h : q ≠ w) : fsWrite w v fs q = fs q := by
  simp [fsWrite, h]

theorem fsWrite_at (w : String) (v : Nat) (fs : FS) :
    fsWrite w v fs w = some v := by
  simp [fsWrite]

theorem fsRemove_ne (w : String) (fs : FS) (q : String) (h : q ≠ w) :
    fsRemove w fs q = fs q := by
  simp [fsRemove, h]

theorem fsRemove_at (w : String) (fs : FS) : fsRemove w fs w = none := by
  simp [fsRemove]

theorem fsRename_ne (src dst : String) (fs : FS) (q : String)
    (h1 : q ≠ dst) (h2 : q ≠ src) : fsRename src dst fs q = fs q := by
  simp [fsRename, h1, h2]

theorem fsRename_at_dst (src dst : String) (fs : FS) :
    fsRename src dst fs dst = fs src := by
  simp [fsRename]

theorem fsRename_at_src (src dst : String) (fs : FS) (h : src ≠ dst) :
    fsRename src dst fs src = none := by
  simp [fsRename, h]

theorem finallyCleanup_at_temp1 (p : TParams) (fs : FS) :
    finallyCleanup p fs p.temp1 = none := by
  unfold finallyCleanup
  by_cases h : fsExists fs p.temp1 = true
  · rw [if_pos h]
    exact fsRemove_at _ _
  · rw [if_neg h]
    unfold fsExists at h
    exact Option.not_isSome_iff_eq_none.mp (by simpa using h)

theorem finallyCleanup_ne (p : TParams) (fs : FS) (q : String)
    (h : q ≠ p.temp1) : finallyCleanup p fs q = fs q := by
  unfold finallyCleanup
  by_cases h2 : fsExists fs p.temp1 = true
  · rw [if_pos h2]
    exact fsRemove_ne _ _ _ h
  · rw [if_neg h2]

/-! ### The commit protocol of lines 117-132 -/

theorem commitPhase_ok (p : TParams) (o : TOracle) (fs : FS) (orig nc : Nat)
    (hout : fs p.output = some orig) (ht1 : fs p.temp1 = some nc)
    (ht2 : fs p.temp2 = none)
    (h12 : p.temp1 ≠ p.temp2) (h1o : p.temp1 ≠ p.output)
    (h2o : p.temp2 ≠ p.output)
    (hback : o.renameBackOk = true) :
    (commitPhase p o fs).1 p.temp1 = none ∧
    (commitPhase p o fs).1 p.temp2 = none ∧
    ((commitPhase p o fs).2 = true →
      (commitPhase p o fs).1 p.output = some nc) ∧
    ((commitPhase p o fs).2 = false →
      (commitPhase p o fs).1 p.output = some orig) := by
  unfold commitPhase
  have hex : fsExists fs p.output = true := by simp [fsExists, hout]
  rw [if_pos hex]
  cases hr1 : o.renameOutT2Ok with
  | false =>
    rw [if_neg (by simp [hr1])]
    dsimp only
    refine ⟨finallyCleanup_at_temp1 p fs, ?_, ?_, ?_⟩
    · rw [finallyCleanup_ne p fs p.temp2 (fun h => h12 h.symm)]
      exact ht2
    · intro h; exact absurd h (by simp)
    · intro _
      rw [finallyCleanup_ne p fs p.output (fun h => h1o h.symm)]
      exact hout
  | true =>
    rw [if_pos rfl]
    have eA1 : fsRename p.output p.temp2 fs p.temp1 = some nc := by
      rw [fsRename_ne _ _ _ _ h12 h1o]; exact ht1
    have eA2 : fsRename p.output p.temp2 fs p.temp2 = some orig := by
      rw [fsRename_at_dst]; exact hout
    have eA3 : fsRename p.output p.temp2 fs p.output = none := by
      rw [fsRename_at_src _ _ _ (fun h => h2o h.symm)]
    cases hr2 : o.renameT1OutOk with
    | true =>
      rw [if_pos rfl]
      dsimp only
      have eB1 : fsRename p.temp1 p.output
          (fsRename p.output p.temp2 fs) p.temp1 = none :=
        fsRename_at_src _ _ _ h1o
      have eB2 : fsRename p.temp1 p.output
          (fsRename p.output p.temp2 fs) p.temp2 = some orig := by
        rw [fsRename_ne _ _ _ _ h2o (fun h => h12 h.symm)]; exact eA2
      have eB3 : fsRename p.temp1 p.output
          (fsRename p.output p.temp2 fs) p.output = some nc := by
        rw [fsRename_at_dst]; exact eA1
      refine ⟨?_, ?_, ?_, ?_⟩
      · exact finallyCleanup_at_temp1 _ _
      · rw [finallyCleanup_ne _ _ _ (fun h => h12 h.symm)]
        exact fsRemove_at _ _
      · intro _
        rw [finallyCleanup_ne _ _ _ (fun h => h1o h.symm)]
        rw [fsRemove_ne _ _ _ (fun h => h2o h.symm)]
        exact eB3
      · intro h; exact absurd h (by simp)
    | false =>
      rw [if_neg (by simp [hr2]), if_pos hback]
      dsimp only
      have eC1 : fsRename p.temp2 p.output
          (fsRename p.output p.temp2 fs) p.temp1 = some nc := by
        rw [fsRename_ne _ _ _ _ h1o h12]; exact eA1
      have eC2 : fsRename p.temp2 p.output
          (fsRename p.output p.temp2 fs) p.temp2 = none :=
        fsRename_at_src _ _ _ h2o
      have eC3 : fsRename p.temp2 p.output
          (fsRename p.output p.temp2 fs) p.output = some orig := by
        rw [fsRename_at_dst]; exact eA2
      refine ⟨finallyCleanup_at_temp1 _ _, ?_, ?_, ?_⟩
      · rw [finallyCleanup_ne _ _ _ (fun h => h12 h.symm)]
        exact eC2
      · intro h; exact absurd h (by simp)
      · intro _
        rw [finallyCleanup_ne _ _ _ (fun h => h1o h.symm)]
        exact eC3

theorem encodeAndCommit_ok (p : TParams) (o : TOracle) (useList : Bool)
    (fs0 : FS) (orig : Nat)
    (hout : fs0 p.output = some orig)
    (ht1 : fs0 p.temp1 = none) (ht2 : fs0 p.temp2 = none)
    (h12 : p.temp1 ≠ p.temp2) (h1o : p.temp1 ≠ p.output)
    (h2o : p.temp2 ≠ p.output)
    (hlo : p.listPath ≠ p.output) (hl1 : p.listPath ≠ p.temp1)
    (hl2 : p.listPath ≠ p.temp2)
    (hback : o.renameBackOk = true) :
    (encodeAndCommit p o useList fs0).1 p.temp1 = none ∧
    (encodeAndCommit p o useList fs0).1 p.temp2 = none ∧
    ((encodeAndCommit p o useList fs0).1 p.output = some orig ∨
      (encodeAndCommit p o useList fs0).1 p.output = some o.newContent) ∧
    ((encodeAndCommit p o useList fs0).2 = false →
      (encodeAndCommit p o useList fs0).1 p.output = some orig) := by
  unfold encodeAndCommit
  try dsimp only
  have hfs1o : (if useList then fsWrite p.listPath 0 fs0 else fs0) p.output =
      some orig := by
    cases useList
    · exact hout
    · rw [if_pos rfl, fsWrite_ne _ _ _ _ (fun h => hlo h.symm)]; exact hout
  have hfs1t1 : (if useList then fsWrite p.listPath 0 fs0 else fs0) p.temp1 =
      none := by
    cases useList
    · exact ht1
    · rw [if_pos rfl, fsWrite_ne _ _ _ _ (fun h => hl1 h.symm)]; exact ht1
  have hfs1t2 : (if useList then fsWrite p.listPath 0 fs0 else fs0) p.temp2 =
      none := by
    cases useList
    · exact ht2
    · rw [if_pos rfl, fsWrite_ne _ _ _ _ (fun h => hl2 h.symm)]; exact ht2
  cases hek : o.encodeOk with
  | true =>
    rw [if_pos rfl]
    try dsimp only
    have hfs3o : (if useList then
        fsRemove p.listPath (fsWrite p.temp1 o.newContent
          (if useList then fsWrite p.listPath 0 fs0 else fs0))
      else fsWrite p.temp1 o.newContent
          (if useList then fsWrite p.listPath 0 fs0 else fs0)) p.output =
        some orig := by
      cases useList
      · rw [if_neg (by simp), fsWrite_ne _ _ _ _ (fun h => h1o h.symm)]
        exact hfs1o
      · rw [if_pos rfl, fsRemove_ne _ _ _ (fun h => hlo h.symm),
          fsWrite_ne _ _ _ _ (fun h => h1o h.symm)]
        exact hfs1o
    have hfs3t1 : (if useList then
        fsRemove p.listPath (fsWrite p.temp1 o.newContent
          (if useList then fsWrite p.listPath 0 fs0 else fs0))
      else fsWrite p.temp1 o.newContent
          (if useList then fsWrite p.listPath 0 fs0 else fs0)) p.temp1 =
        some o.newContent := by
      cases useList
      · rw [if_neg (by simp)]; exact fsWrite_at _ _ _
      · rw [if_pos rfl, fsRemove_ne _ _ _ hl1.symm]
        exact fsWrite_at _ _ _
    have hfs3t2 : (if useList then
        fsRemove p.listPath (fsWrite p.temp1 o.newContent
          (if useList then fsWrite p.listPath 0 fs0 else fs0))
      else fsWrite p.temp1 o.newContent
          (if useList then fsWrite p.listPath 0 fs0 else fs0)) p.temp2 =
        none := by
      cases useList
      · rw [if_neg (by simp), fsWrite_ne _ _ _ _ (fun h => h12 h.symm)]
        exact hfs1t2
      · rw [if_pos rfl, fsRemove_ne _ _ _ (fun h => hl2 h.symm),
          fsWrite_ne _ _ _ _ (fun h => h12 h.symm)]
        exact hfs1t2
    obtain ⟨c1, c2, c3, c4⟩ :=
      commitPhase_ok p o _ orig o.newContent hfs3o hfs3t1 hfs3t2 h12 h1o h2o
        hback
    refine ⟨c1, c2, ?_, c4⟩
    cases hres : (commitPhase p o _).2 with
    | true => exact Or.inr (c3 hres)
    | false => exact Or.inl (c4 hres)
  | false =>
    rw [if_neg (by simp [hek])]
    try dsimp only
    have hfs3o : (if useList then
        fsRemove p.listPath (if o.encodeLeavesFile then
          fsWrite p.temp1 o.newContent
            (if useList then fsWrite p.listPath 0 fs0 else fs0)
          else (if useList then fsWrite p.listPath 0 fs0 else fs0))
      else (if o.encodeLeavesFile then
          fsWrite p.temp1 o.newContent
            (if useList then fsWrite p.listPath 0 fs0 else fs0)
          else (if useList then fsWrite p.listPath 0 fs0 else fs0))) p.output =
        some orig := by
      have hmid : (if o.encodeLeavesFile then
          fsWrite p.temp1 o.newContent
            (if useList then fsWrite p.listPath 0 fs0 else fs0)
          else (if useList then fsWrite p.listPath 0 fs0 else fs0)) p.output =
          some orig := by
        cases o.encodeLeavesFile
        · exact hfs1o
        · rw [if_pos rfl, fsWrite_ne _ _ _ _ (fun h => h1o h.symm)]
          exact hfs1o
      cases useList
      · exact hmid
      · rw [if_pos rfl, fsRemove_ne _ _ _ (fun h => hlo h.symm)]
        exact hmid
    have hfs3t2 : (if useList then
        fsRemove p.listPath (if o.encodeLeavesFile then
          fsWrite p.temp1 o.newContent
            (if useList then fsWrite p.listPath 0 fs0 else fs0)
          else (if useList then fsWrite p.listPath 0 fs0 else fs0))
      else (if o.encodeLeavesFile then
          fsWrite p.temp1 o.newContent
            (if useList then fsWrite p.listPath 0 fs0 else fs0)
          else (if useList then fsWrite p.listPath 0 fs0 else fs0))) p.temp2 =
        none := by
      have hmid : (if o.encodeLeavesFile then
          fsWrite p.temp1 o.newContent
            (if useList then fsWrite p.listPath 0 fs0 else fs0)
          else (if useList then fsWrite p.listPath 0 fs0 else fs0)) p.temp2 =
          none := by
        cases o.encodeLeavesFile
        · exact hfs1t2
        · rw [if_pos rfl, fsWrite_ne _ _ _ _ (fun h => h12 h.symm)]
          exact hfs1t2
      cases useList
      · exact hmid
      · rw [if_pos rfl, fsRemove_ne _ _ _ (fun h => hl2 h.symm)]
        exact hmid
    refine ⟨finallyCleanup_at_temp1 _ _, ?_, ?_, ?_⟩
    · rw [finallyCleanup_ne _ _ _ (fun h => h12 h.symm)]
      exact hfs3t2
    · refine Or.inl ?_
      rw [finallyCleanup_ne _ _ _ (fun h => h1o h.symm)]
      exact hfs3o
    · intro _
      rw [finallyCleanup_ne _ _ _ (fun h => h1o h.symm)]
      exact hfs3o

end AVTool

namespace AVTool

/-- Claim C1 (amended): atomic commit. For every invocation whose output
path exists at entry (with fresh temporary and playlist names), PROVIDED
the restoring rename of the rollback path succeeds, the primary temporary
file and the second temporary name are gone on every exit path, the output
path holds either the untouched original content or the freshly produced
content, and on every exceptional exit it holds exactly the original. -/
theorem C1_atomic_commit_amended (p : TParams) (o : TOracle) (fs0 : FS)
    (orig : Nat)
    (hout : fs0 p.output = some orig)
    (ht1 : fs0 p.temp1 = none) (ht2 : fs0 p.temp2 = none)
    (h12 : p.temp1 ≠ p.temp2) (h1o : p.temp1 ≠ p.output)
    (h2o : p.temp2 ≠ p.output)
    (hlo : p.listPath ≠ p.output) (hl1 : p.listPath ≠ p.temp1)
    (hl2 : p.listPath ≠ p.temp2)
    (hback : o.renameBackOk = true) :
    (transcodeMovies p o fs0).1 p.temp1 = none ∧
    (transcodeMovies p o fs0).1 p.temp2 = none ∧
    ((transcodeMovies p o fs0).1 p.output = some orig ∨
      (transcodeMovies p o fs0).1 p.output = some o.newContent) ∧
    ((transcodeMovies p o fs0).2 = false →
      (transcodeMovies p o fs0).1 p.output = some orig) := by
  cases hie : p.inputs.isEmpty with
  | true =>
    simp only [transcodeMovies, hie, if_true]
    exact ⟨ht1, ht2, Or.inl hout, fun _ => hout⟩
  | false =>
    cases hpr : o.probeOk with
    | false =>
      simp only [transcodeMovies, hie, hpr, Bool.false_eq_true, if_false,
        Bool.not_false, if_true]
      exact ⟨ht1, ht2, Or.inl hout, fun _ => hout⟩
    | true =>
      cases hsel : selectPipeline p.inputs p.output o.codecs with
      | noop =>
        simp only [transcodeMovies, hie, hpr, hsel, Bool.false_eq_true,
          if_false, Bool.not_true]
        exact ⟨ht1, ht2, Or.inl hout, fun h => absurd h (by simp)⟩
      | directCopy =>
        simp only [transcodeMovies, hie, hpr, hsel, Bool.false_eq_true,
          if_false, Bool.not_true]
        exact encodeAndCommit_ok p o _ fs0 orig hout ht1 ht2 h12 h1o h2o
          hlo hl1 hl2 hback
      | concatCopy =>
        simp only [transcodeMovies, hie, hpr, hsel, Bool.false_eq_true,
          if_false, Bool.not_true]
        exact encodeAndCommit_ok p o _ fs0 orig hout ht1 ht2 h12 h1o h2o
          hlo hl1 hl2 hback
      | reencodeSingle =>
        simp only [transcodeMovies, hie, hpr, hsel, Bool.false_eq_true,
          if_false, Bool.not_true]
        exact encodeAndCommit_ok p o _ fs0 orig hout ht1 ht2 h12 h1o h2o
          hlo hl1 hl2 hback
      | reencodeConcat =>
        simp only [transcodeMovies, hie, hpr, hsel, Bool.false_eq_true,
          if_false, Bool.not_true]
        exact encodeAndCommit_ok p o _ fs0 orig hout ht1 ht2 h12 h1o h2o
          hlo hl1 hl2 hback

/-- C1 counterexample: if the final rename AND the restoring rename both
fail, the output path is left missing (the original survives only under the
second temporary name) — refuting the unconditional claim that the output
path never holds a missing file. -/
theorem C1_double_rename_failure :
    (transcodeMovies
      ⟨["/a/in.mp4"], "/a/out.mp4", "/a/t1.mp4", "/a/t2.mp4", "/tmp/l"⟩
      ⟨true, [⟨[("codec_name", "mpeg4")], []⟩], true, false, 1,
        true, false, false, true⟩
      (fun q => if q = "/a/out.mp4" then some 0
        else if q = "/a/in.mp4" then some 7 else none)).1 "/a/out.mp4" =
      none ∧
    (fun q => if q = "/a/out.mp4" then some 0
      else if q = "/a/in.mp4" then some 7 else none : FS) "/a/out.mp4" =
      some 0 := by
  constructor
  · decide
  · decide

/-- Witness for the amended C1 on the rollback path: encode succeeds, the
final rename fails, the restoring rename succeeds — the original content is
back at the output path and both temporaries are gone. -/
theorem C1_atomic_commit_amended_witness :
    (transcodeMovies
      ⟨["/a/in.mp4"], "/a/out.mp4", "/a/t1.mp4", "/a/t2.mp4", "/tmp/l"⟩
      ⟨true, [⟨[("codec_name", "mpeg4")], []⟩], true, false, 1,
        true, false, true, true⟩
      (fun q => if q = "/a/out.mp4" then some 0
        else if q = "/a/in.mp4" then some 7 else none)).1 "/a/t1.mp4" =
      none ∧
    (transcodeMovies
      ⟨["/a/in.mp4"], "/a/out.mp4", "/a/t1.mp4", "/a/t2.mp4", "/tmp/l"⟩
      ⟨true, [⟨[("codec_name", "mpeg4")], []⟩], true, false, 1,
        true, false, true, true⟩
      (fun q => if q = "/a/out.mp4" then some 0
        else if q = "/a/in.mp4" then some 7 else none)).1 "/a/t2.mp4" =
      none ∧
    ((transcodeMovies
      ⟨["/a/in.mp4"], "/a/out.mp4", "/a/t1.mp4", "/a/t2.mp4", "/tmp/l"⟩
      ⟨true, [⟨[("codec_name", "mpeg4")], []⟩], true, false, 1,
        true, false, true, true⟩
      (fun q => if q = "/a/out.mp4" then some 0
        else if q = "/a/in.mp4" then some 7 else none)).1 "/a/out.mp4" =
      some 0 ∨
     (transcodeMovies
      ⟨["/a/in.mp4"], "/a/out.mp4", "/a/t1.mp4", "/a/t2.mp4", "/tmp/l"⟩
      ⟨true, [⟨[("codec_name", "mpeg4")], []⟩], true, false, 1,
        true, false, true, true⟩
      (fun q => if q = "/a/out.mp4" then some 0
        else if q = "/a/in.mp4" then some 7 else none)).1 "/a/out.mp4" =
      some 1) ∧
    ((transcodeMovies
      ⟨["/a/in.mp4"], "/a/out.mp4", "/a/t1.mp4", "/a/t2.mp4", "/tmp/l"⟩
      ⟨true, [⟨[("codec_name", "mpeg4")], []⟩], true, false, 1,
        true, false, true, true⟩
      (fun q => if q = "/a/out.mp4" then some 0
        else if q = "/a/in.mp4" then some 7 else none)).2 = false →
     (transcodeMovies
      ⟨["/a/in.mp4"], "/a/out.mp4", "/a/t1.mp4", "/a/t2.mp4", "/tmp/l"⟩
      ⟨true, [⟨[("codec_name", "mpeg4")], []⟩], true, false, 1,
        true, false, true, true⟩
      (fun q => if q = "/a/out.mp4" then some 0
        else if q = "/a/in.mp4" then some 7 else none)).1 "/a/out.mp4" =
      some 0) :=
  C1_atomic_commit_amended
    ⟨["/a/in.mp4"], "/a/out.mp4", "/a/t1.mp4", "/a/t2.mp4", "/tmp/l"⟩
    ⟨true, [⟨[("codec_name", "mpeg4")], []⟩], true, false, 1,
      true, false, true, true⟩
    (fun q => if q = "/a/out.mp4" then some 0
      else if q = "/a/in.mp4" then some 7 else none) 0
    rfl rfl rfl (by decide) (by decide) (by decide) (by decide) (by decide)
    (by decide) rfl

/-- Claim C7: the transcode no-op. A single input that is copy-eligible
(desired video codec; audio trivially equal to itself) with the output path
equal to the input path returns immediately: the filesystem is unchanged
(no temporary file is created) and no exception is raised. -/
theorem C7_noop (p : TParams) (o : TOracle) (fs0 : FS) (i : String)
    (c : MovieCodec)
    (hi : p.inputs = [i]) (hout : i = p.output)
    (hpr : o.probeOk = true) (hc : o.codecs = [c])
    (hd : isDesiredVideoCodec c = true) :
    transcodeMovies p o fs0 = (fs0, true) := by
  have hsel : selectPipeline p.inputs p.output o.codecs = Pipeline.noop := by
    unfold selectPipeline
    rw [hi, hc]
    have h1 : audioCopy [c] = true := by
      simp [audioCopy, audioNeedTranscode]
    have h2 : videoCopy [c] = true := by
      simp [videoCopy, videoNeedTranscode, adjacentAllB, hd]
    rw [h1, h2]
    simp [hout]
  have hie : p.inputs.isEmpty = false := by rw [hi]; rfl
  simp only [transcodeMovies, hie, hpr, hsel, Bool.false_eq_true, if_false,
    Bool.not_true]

/-- Witness for C7. -/
theorem C7_noop_witness :
    transcodeMovies
      ⟨["/a/o.mp4"], "/a/o.mp4", "/a/t1.mp4", "/a/t2.mp4", "/tmp/l"⟩
      ⟨true, [⟨[("codec_name", "h264")], [("codec_name", "aac")]⟩],
        true, false, 1, true, true, true, true⟩
      (fun q => if q = "/a/o.mp4" then some 5 else none) =
      ((fun q => if q = "/a/o.mp4" then some 5 else none), true) :=
  C7_noop _ _ _ "/a/o.mp4" ⟨[("codec_name", "h264")], [("codec_name", "aac")]⟩
    rfl rfl rfl rfl (by decide)

end AVTool

namespace AVTool

theorem commitPhase_frame (p : TParams) (o : TOracle) (fs : FS) (q : String)
    (h1 : q ≠ p.output) (h2 : q ≠ p.temp1) (h3 : q ≠ p.temp2) :
    (commitPhase p o fs).1 q = fs q := by
  unfold commitPhase
  by_cases he : fsExists fs p.output = true
  · rw [if_pos he]
    cases hr1 : o.renameOutT2Ok with
    | false =>
      rw [if_neg (by simp [hr1])]
      dsimp only
      rw [finallyCleanup_ne _ _ _ h2]
    | true =>
      rw [if_pos rfl]
      cases hr2 : o.renameT1OutOk with
      | true =>
        rw [if_pos rfl]
        dsimp only
        rw [finallyCleanup_ne _ _ _ h2, fsRemove_ne _ _ _ h3,
          fsRename_ne _ _ _ _ h1 h2, fsRename_ne _ _ _ _ h3 h1]
      | false =>
        rw [if_neg (by simp [hr2])]
        cases hrb : o.renameBackOk with
        | true =>
          rw [if_pos rfl]
          dsimp only
          rw [finallyCleanup_ne _ _ _ h2, fsRename_ne _ _ _ _ h1 h3,
            fsRename_ne _ _ _ _ h3 h1]
        | false =>
          rw [if_neg (by simp [hrb])]
          dsimp only
          rw [finallyCleanup_ne _ _ _ h2, fsRename_ne _ _ _ _ h3 h1]
  · rw [if_neg he]
    cases hr4 : o.renameFreshOk with
    | true =>
      rw [if_pos rfl]
      dsimp only
      rw [finallyCleanup_ne _ _ _ h2, fsRename_ne _ _ _ _ h1 h2]
    | false =>
      rw [if_neg (by simp [hr4])]
      dsimp only
      rw [finallyCleanup_ne _ _ _ h2]

theorem encodeAndCommit_frame (p : TParams) (o : TOracle) (useList : Bool)
    (fs0 : FS) (q : String)
    (h1 : q ≠ p.output) (h2 : q ≠ p.temp1) (h3 : q ≠ p.temp2)
    (h4 : q ≠ p.listPath) :
    (encodeAndCommit p o useList fs0).1 q = fs0 q := by
  have hfs1 : (if useList then fsWrite p.listPath 0 fs0 else fs0) q =
      fs0 q := by
    cases useList
    · rfl
    · rw [if_pos rfl]
      exact fsWrite_ne _ _ _ _ h4
  have hlist : ∀ fs : FS, fs q = fs0 q →
      (if useList then fsRemove p.listPath fs else fs) q = fs0 q := by
    intro fs h
    cases useList
    · exact h
    · rw [if_pos rfl, fsRemove_ne _ _ _ h4]
      exact h
  have hcore : ∀ fs : FS, fs q = fs0 q →
      (fsWrite p.temp1 o.newContent fs) q = fs0 q := by
    intro fs h
    rw [fsWrite_ne _ _ _ _ h2]
    exact h
  unfold encodeAndCommit
  try dsimp only
  cases hek : o.encodeOk with
  | true =>
    rw [if_pos rfl]
    try dsimp only
    rw [commitPhase_frame p o _ q h1 h2 h3]
    exact hlist _ (hcore _ hfs1)
  | false =>
    rw [if_neg (by simp [hek])]
    try dsimp only
    rw [finallyCleanup_ne _ _ _ h2]
    refine hlist _ ?_
    cases hel : o.encodeLeavesFile with
    | true =>
      rw [if_pos rfl]
      exact hcore _ hfs1
    | false =>
      rw [if_neg (by simp [hel])]
      exact hfs1

/-- Claim C10 (amended): the frame property of `transcode_movies`. The only
filesystem locations the engine can create, rename, or remove are the
output path, the two temporary names derived from it, and the playlist
inside the private temporary directory; every other path — in particular
every input file not located at one of those four paths — is untouched on
every execution. (An input located AT the output path can be overwritten:
see the counterexample.) -/
theorem C10_frame_amended :
    (∀ (p : TParams) (o : TOracle) (fs0 : FS) (q : String),
      q ≠ p.output → q ≠ p.temp1 → q ≠ p.temp2 → q ≠ p.listPath →
      (transcodeMovies p o fs0).1 q = fs0 q) ∧
    (∀ (p : TParams) (o : TOracle) (fs0 : FS) (inp : String),
      inp ∈ p.inputs →
      inp ≠ p.output → inp ≠ p.temp1 → inp ≠ p.temp2 → inp ≠ p.listPath →
      (transcodeMovies p o fs0).1 inp = fs0 inp) := by
  have hframe : ∀ (p : TParams) (o : TOracle) (fs0 : FS) (q : String),
      q ≠ p.output → q ≠ p.temp1 → q ≠ p.temp2 → q ≠ p.listPath →
      (transcodeMovies p o fs0).1 q = fs0 q := by
    intro p o fs0 q h1 h2 h3 h4
    cases hie : p.inputs.isEmpty with
    | true => simp only [transcodeMovies, hie, if_true]
    | false =>
      cases hpr : o.probeOk with
      | false =>
        simp only [transcodeMovies, hie, hpr, Bool.false_eq_true, if_false,
          Bool.not_false, if_true]
      | true =>
        cases hsel : selectPipeline p.inputs p.output o.codecs with
        | noop =>
          simp only [transcodeMovies, hie, hpr, hsel, Bool.false_eq_true,
            if_false, Bool.not_true]
        | directCopy =>
          simp only [transcodeMovies, hie, hpr, hsel, Bool.false_eq_true,
            if_false, Bool.not_true]
          exact encodeAndCommit_frame p o _ fs0 q h1 h2 h3 h4
        | concatCopy =>
          simp only [transcodeMovies, hie, hpr, hsel, Bool.false_eq_true,
            if_false, Bool.not_true]
          exact encodeAndCommit_frame p o _ fs0 q h1 h2 h3 h4
        | reencodeSingle =>
          simp only [transcodeMovies, hie, hpr, hsel, Bool.false_eq_true,
            if_false, Bool.not_true]
          exact encodeAndCommit_frame p o _ fs0 q h1 h2 h3 h4
        | reencodeConcat =>
          simp only [transcodeMovies, hie, hpr, hsel, Bool.false_eq_true,
            if_false, Bool.not_true]
          exact encodeAndCommit_frame p o _ fs0 q h1 h2 h3 h4
  exact ⟨hframe, fun p o fs0 inp _ h1 h2 h3 h4 =>
    hframe p o fs0 inp h1 h2 h3 h4⟩

/-- C10 counterexample: transcoding in place (the single input path equals
the output path) with a non-desired codec re-encodes and then replaces the
file: the input file's content changes from 0 to the newly produced
content 1 — refuting the claim that no input file is ever overwritten. -/
theorem C10_inplace_overwrites_input :
    ("/v/out.mp4" ∈
      (⟨["/v/out.mp4"], "/v/out.mp4", "/v/t1.mp4", "/v/t2.mp4", "/tmp/l"⟩ :
        TParams).inputs) ∧
    (fun q => if q = "/v/out.mp4" then some 0 else none : FS) "/v/out.mp4" =
      some 0 ∧
    (transcodeMovies
      ⟨["/v/out.mp4"], "/v/out.mp4", "/v/t1.mp4", "/v/t2.mp4", "/tmp/l"⟩
      ⟨true, [⟨[("codec_name", "mpeg4")], []⟩], true, false, 1,
        true, true, true, true⟩
      (fun q => if q = "/v/out.mp4" then some 0 else none)).1 "/v/out.mp4" =
      some 1 := by
  refine ⟨by simp, by decide, by decide⟩

/-- Witness for the amended C10: an input at a path distinct from the
output, temporaries and playlist is untouched. -/
theorem C10_frame_amended_witness :
    (transcodeMovies
      ⟨["/a/in.mp4"], "/a/out.mp4", "/a/t1.mp4", "/a/t2.mp4", "/tmp/l"⟩
      ⟨true, [⟨[("codec_name", "mpeg4")], []⟩], true, false, 1,
        true, true, true, true⟩
      (fun q => if q = "/a/in.mp4" then some 7 else none)).1 "/a/in.mp4" =
      (fun q => if q = "/a/in.mp4" then some 7 else none : FS) "/a/in.mp4" :=
  C10_frame_amended.2
    ⟨["/a/in.mp4"], "/a/out.mp4", "/a/t1.mp4", "/a/t2.mp4", "/tmp/l"⟩
    ⟨true, [⟨[("codec_name", "mpeg4")], []⟩], true, false, 1,
      true, true, true, true⟩
    (fun q => if q = "/a/in.mp4" then some 7 else none) "/a/in.mp4"
    (by decide) (by decide) (by decide) (by decide) (by decide)

end AVTool

namespace AVTool

/-- Witness for C2: with the listing `ABC-12.mp4`, `ABC-12.mp4.part`, the
classifier poisons `ABC-12` and no entry with that identifier can appear in
the output. -/
theorem C2_poison_permanent_witness :
    procNames none ["ABC-12.mp4", "ABC-12.mp4.part"] =
      some [("ABC-12", MState.forbidden)] ∧
    (⟨"ABC-12", "d", false, ["ABC-12.mp4"], none⟩ : AVEntry) ∉
      getEntries "d" [("ABC-12", MState.forbidden)] := by
  refine ⟨by decide, fun hmem => ?_⟩
  exact C2_poison_permanent none ["ABC-12.mp4", "ABC-12.mp4.part"]
    [("ABC-12", MState.forbidden)] "ABC-12.mp4.part"
    ⟨"ABC-12", none, none, none, "mp4", some "part"⟩
    (by decide) (by decide) (by decide) (by decide) "d"
    ⟨"ABC-12", "d", false, ["ABC-12.mp4"], none⟩ hmem (by decide)

end AVTool
